import Mathlib

/-!
# A verification development for the π Framework evaluator (`pi.py`)

This file gives a shallow embedding of the π Framework: the π Lib syntax
tree (`Stmt`, mirroring the `Statement` class hierarchy) and the layered
π automaton (`evalExpStep` / `evalCmdStep` / `evalDecStep`, mirroring
`ExpπAut.eval`, `CmdπAut.eval` and `DecπAut.eval`).

Modelling conventions:
* Python floats are modelled as `Rat`.  The language has no division, and
  every arithmetic operation appearing in the programs under study is exact,
  so rational arithmetic agrees with the source's floating-point arithmetic
  on all the inputs considered here.
* The machine is one mutable Python dictionary; here it is an explicit
  record `MState` (value stack, environment, store, location-ledger cells)
  threaded through a step function.
* The location ledger `self["locs"]` is a Python list object that is pushed
  *by reference* onto the value stack by `__evalBlkDecKW` and mutated by
  later `pushLoc` calls.  To keep that aliasing, ledgers live in an explicit
  heap of cells (`MState.cells`); `MState.cur` is the index of the live cell
  (the object `self["locs"]` currently points to).  A ledger pushed by
  reference is the value `Val.ref i` (cell index); a ledger pushed as a
  copy (`l.copy()` in `__evalBlk`) is the value `Val.snap l`.
* Python exceptions are an explicit error type `PiErr`.
-/

/-- π Lib syntax trees: one constructor per concrete `Statement` subclass of
`pi.py`.  Sort information (`Exp` / `BoolExp` / `Cmd` / `Dec`), which the
source encodes by inheritance, is recovered by the predicates below. -/
inductive Stmt where
  | num (f : Rat)
  | sum (e1 e2 : Stmt)
  | sub (e1 e2 : Stmt)
  | mul (e1 e2 : Stmt)
  | eq (e1 e2 : Stmt)
  | not (e : Stmt)
  | id (s : String)
  | assign (i : Stmt) (e : Stmt)
  | loop (be : Stmt) (c : Stmt)
  | cseq (c1 c2 : Stmt)
  | bind (i : Stmt) (e : Stmt)
  | ref (e : Stmt)
  | cns (e : Stmt)
  | blk (d : Stmt) (c : Stmt)
  | dseq (d1 d2 : Stmt)
deriving DecidableEq, Repr

/-- `isinstance(·, Exp)`: expressions are `Num`, the arithmetic and boolean
operators, `Id`, `Ref` and `Cns`. -/
def isExpT : Stmt → Bool
  | .num _ | .sum _ _ | .sub _ _ | .mul _ _ | .eq _ _ | .not _
  | .id _ | .ref _ | .cns _ => true
  | _ => false

/-- `isinstance(·, BoolExp)`: `Eq` and `Not`. -/
def isBoolT : Stmt → Bool
  | .eq _ _ | .not _ => true
  | _ => false

/-- `isinstance(·, Cmd)`: `Assign`, `Loop`, `CSeq` and `Blk`. -/
def isCmdT : Stmt → Bool
  | .assign _ _ | .loop _ _ | .cseq _ _ | .blk _ _ => true
  | _ => false

/-- `isinstance(·, Dec)`: `Bind` and `DSeq`. -/
def isDecT : Stmt → Bool
  | .bind _ _ | .dseq _ _ => true
  | _ => false

/-- `isinstance(·, Id)`. -/
def isIdT : Stmt → Bool
  | .id _ => true
  | _ => false

/-- A tree is constructible in Python iff every constructor's `assert`
(an `isinstance` sort check on each operand) succeeds bottom-up. -/
def wfT : Stmt → Bool
  | .num _ => true
  | .id _ => true
  | .sum e1 e2 | .sub e1 e2 | .mul e1 e2 | .eq e1 e2 =>
      isExpT e1 && isExpT e2 && wfT e1 && wfT e2
  | .not e => isExpT e && wfT e
  | .assign i e => isIdT i && isExpT e && wfT e
  | .loop be c => isBoolT be && isCmdT c && wfT be && wfT c
  | .cseq c1 c2 => isCmdT c1 && isCmdT c2 && wfT c1 && wfT c2
  | .bind i e => isIdT i && isExpT e && wfT e
  | .ref e | .cns e => isExpT e && wfT e
  | .blk d c => isDecT d && isCmdT c && wfT d && wfT c
  | .dseq d1 d2 => isDecT d1 && isDecT d2 && wfT d1 && wfT d2

/-- Pure expressions: built only from `Num`, `Sum`, `Sub`, `Mul`, `Eq`,
`Not` (no `Id`, `Ref`, `Cns`, commands or declarations). -/
def pureT : Stmt → Bool
  | .num _ => true
  | .sum e1 e2 | .sub e1 e2 | .mul e1 e2 | .eq e1 e2 => pureT e1 && pureT e2
  | .not e => pureT e
  | _ => false

/-- The `MalformedTerm` condition (a failing constructor `assert`) versus
the machine's runtime exceptions. -/
inductive PiErr where
  /-- a constructor `assert` failed (`AssertionError` at term build time) -/
  | malformedTerm
  /-- `raise Exception("Ill formed:", e)` in `ExpπAut.eval` -/
  | illFormed
  /-- `IndexError`: popping an empty value or control stack -/
  | stackErr
  /-- `KeyError`: missing environment or store key -/
  | keyErr
  /-- `TypeError`-like misuse of a popped value -/
  | typeErr
deriving DecidableEq, Repr

/-- Checked constructor mirroring `Sum.__init__` and its `assert`. -/
def mkSum (e1 e2 : Stmt) : Except PiErr Stmt :=
  if isExpT e1 && isExpT e2 then .ok (.sum e1 e2) else .error .malformedTerm

/-- Checked constructor mirroring `Sub.__init__`. -/
def mkSub (e1 e2 : Stmt) : Except PiErr Stmt :=
  if isExpT e1 && isExpT e2 then .ok (.sub e1 e2) else .error .malformedTerm

/-- Checked constructor mirroring `Mul.__init__`. -/
def mkMul (e1 e2 : Stmt) : Except PiErr Stmt :=
  if isExpT e1 && isExpT e2 then .ok (.mul e1 e2) else .error .malformedTerm

/-- Checked constructor mirroring `Eq.__init__`. -/
def mkEq (e1 e2 : Stmt) : Except PiErr Stmt :=
  if isExpT e1 && isExpT e2 then .ok (.eq e1 e2) else .error .malformedTerm

/-- Checked constructor mirroring `Not.__init__`. -/
def mkNot (e : Stmt) : Except PiErr Stmt :=
  if isExpT e then .ok (.not e) else .error .malformedTerm

/-- Checked constructor mirroring `Assign.__init__`. -/
def mkAssign (i e : Stmt) : Except PiErr Stmt :=
  if isIdT i && isExpT e then .ok (.assign i e) else .error .malformedTerm

/-- Checked constructor mirroring `Loop.__init__`. -/
def mkLoop (be c : Stmt) : Except PiErr Stmt :=
  if isBoolT be && isCmdT c then .ok (.loop be c) else .error .malformedTerm

/-- Checked constructor mirroring `CSeq.__init__`. -/
def mkCSeq (c1 c2 : Stmt) : Except PiErr Stmt :=
  if isCmdT c1 && isCmdT c2 then .ok (.cseq c1 c2) else .error .malformedTerm

/-- Checked constructor mirroring `Bind.__init__`. -/
def mkBind (i e : Stmt) : Except PiErr Stmt :=
  if isIdT i && isExpT e then .ok (.bind i e) else .error .malformedTerm

/-- Checked constructor mirroring `Ref.__init__`. -/
def mkRef (e : Stmt) : Except PiErr Stmt :=
  if isExpT e then .ok (.ref e) else .error .malformedTerm

/-- Checked constructor mirroring `Cns.__init__`. -/
def mkCns (e : Stmt) : Except PiErr Stmt :=
  if isExpT e then .ok (.cns e) else .error .malformedTerm

/-- Checked constructor mirroring `Blk.__init__`. -/
def mkBlk (d c : Stmt) : Except PiErr Stmt :=
  if isDecT d && isCmdT c then .ok (.blk d c) else .error .malformedTerm

/-- Checked constructor mirroring `DSeq.__init__`. -/
def mkDSeq (d1 d2 : Stmt) : Except PiErr Stmt :=
  if isDecT d1 && isDecT d2 then .ok (.dseq d1 d2) else .error .malformedTerm

/-- Runtime values.  Both stacks of the π automaton hold arbitrary Python
objects; the ones the machine actually pushes are floats (and locations,
which are floats produced by `__newLoc`), booleans, identifier strings
(which double as the control-stack marker strings `"#SUM"`, …),
name-to-location dictionaries, ledger lists (by copy `snap` or by object
reference `ref`, see the header), and syntax trees. -/
inductive Val where
  | num (f : Rat)
  | bool (b : Bool)
  | str (s : String)
  | map (m : List (String × Rat))
  | snap (l : List Rat)
  | ref (i : Nat)
  | stmt (t : Stmt)
deriving DecidableEq, Repr

/-- Environments: Python `Env(dict)`, name to location, insertion-ordered. -/
abbrev EnvT := List (String × Rat)

/-- Stores: Python `Sto(dict)`, location to value, insertion-ordered. -/
abbrev StoT := List (Rat × Val)

/-- Dictionary lookup `en[i]` (first matching key). -/
def lookupE (en : EnvT) (x : String) : Option Rat :=
  match en with
  | [] => none
  | (k, v) :: r => if k = x then some v else lookupE r x

/-- Dictionary lookup `sto[l]`. -/
def lookupS (st : StoT) (l : Rat) : Option Val :=
  match st with
  | [] => none
  | (k, v) :: r => if k = l then some v else lookupS r l

/-- Dictionary assignment `st[l] = v`: replace in place if the key exists
(keeping its position, as Python dicts do), otherwise append. -/
def setS (st : StoT) (l : Rat) (v : Val) : StoT :=
  match st with
  | [] => [(l, v)]
  | (k, w) :: r => if k = l then (k, v) :: r else (k, w) :: setS r l v

/-- Dictionary assignment for environments. -/
def setE (en : EnvT) (x : String) (l : Rat) : EnvT :=
  match en with
  | [] => [(x, l)]
  | (k, w) :: r => if k = x then (k, l) :: r else (k, w) :: setE r x l

/-- `d1.update(d2)`: fold the entries of `d2` into `d1`, right biased. -/
def mergeE (d1 d2 : EnvT) : EnvT :=
  d2.foldl (fun acc kv => setE acc kv.1 kv.2) d1

/-- The keys of a store, in insertion order (`list(sto.keys())`). -/
def keysS (st : StoT) : List Rat := st.map Prod.fst

/-- Rational addition, written out through `mkRat` so that it evaluates
inside the kernel (`Rat.add` itself is `@[irreducible]`); proved equal to
`Rat.add` in `addQ_eq` below. -/
def addQ (a b : Rat) : Rat := mkRat (a.num * b.den + b.num * a.den) (a.den * b.den)

/-- Rational subtraction through `mkRat`; equals `Rat.sub` (`subQ_eq`). -/
def subQ (a b : Rat) : Rat := mkRat (a.num * b.den - b.num * a.den) (a.den * b.den)

/-- Rational multiplication through `mkRat`; equals `Rat.mul` (`mulQ_eq`). -/
def mulQ (a b : Rat) : Rat := mkRat (a.num * b.num) (a.den * b.den)

theorem addQ_eq (a b : Rat) : addQ a b = a + b := by
  rw [Rat.add_def]; simp [addQ, Rat.normalize_eq_mkRat]

theorem subQ_eq (a b : Rat) : subQ a b = a - b := by
  rw [Rat.sub_def]; simp [subQ, Rat.normalize_eq_mkRat]

theorem mulQ_eq (a b : Rat) : mulQ a b = a * b := by
  rw [Rat.mul_def]; simp [mulQ, Rat.normalize_eq_mkRat]

/-- `DecπAut.__newLoc`: `max(list(sto.keys())) + 1` on a non-empty store,
`0.0` on an empty one. -/
def newLoc (st : StoT) : Rat :=
  match keysS st with
  | [] => 0
  | k :: ks => addQ (ks.foldl max k) 1

/-- Coercion of a Python value to a number for arithmetic: floats are
themselves, booleans are `1`/`0` (Python `bool` is an `int`). -/
def toNumV : Val → Option Rat
  | .num f => some f
  | .bool b => some (if b then 1 else 0)
  | _ => none

/-- Python `v1 + v2` on the values the machine can hold: numeric addition
(with bool coercion), string concatenation, list concatenation (a `ref`
dereferences to its cell's contents); everything else is a `TypeError`.
The caller supplies the cell heap to dereference `ref` values. -/
def addV (cells : List (List Rat)) (v1 v2 : Val) : Except PiErr Val :=
  match toNumV v1, toNumV v2 with
  | some a, some b => .ok (.num (addQ a b))
  | _, _ =>
    match v1, v2 with
    | .str a, .str b => .ok (.str (a ++ b))
    | .snap a, .snap b => .ok (.snap (a ++ b))
    | .snap a, .ref j => .ok (.snap (a ++ cells.getD j []))
    | .ref i, .snap b => .ok (.snap (cells.getD i [] ++ b))
    | .ref i, .ref j => .ok (.snap (cells.getD i [] ++ cells.getD j []))
    | _, _ => .error .typeErr

/-- Python `v1 - v2`: numeric only (with bool coercion). -/
def subV (v1 v2 : Val) : Except PiErr Val :=
  match toNumV v1, toNumV v2 with
  | some a, some b => .ok (.num (subQ a b))
  | _, _ => .error .typeErr

/-- Python `v1 * v2`: numeric (with bool coercion).  Python's
sequence-repetition (`str * bool`) is not modelled: `MUL` only ever pops
expression results in runs of constructible trees. -/
def mulV (v1 v2 : Val) : Except PiErr Val :=
  match toNumV v1, toNumV v2 with
  | some a, some b => .ok (.num (mulQ a b))
  | _, _ => .error .typeErr

/-- Python `v1 == v2`: structural across numbers/booleans (with coercion),
strings, dicts and lists (`ref` dereferences); distinct types compare
unequal.  Two `Stmt` objects compare by identity in Python and two
separately pushed trees are never identical, so tree against tree is
`false` here (the machine never pushes the same tree object twice onto the
value stack before an `EQ` marker). -/
def eqV (cells : List (List Rat)) (v1 v2 : Val) : Bool :=
  match toNumV v1, toNumV v2 with
  | some a, some b => a == b
  | _, _ =>
    match v1, v2 with
    | .str a, .str b => a == b
    | .map a, .map b => a == b
    | .snap a, .snap b => a == b
    | .snap a, .ref j => a == cells.getD j []
    | .ref i, .snap b => cells.getD i [] == b
    | .ref i, .ref j => cells.getD i [] == cells.getD j []
    | _, _ => false

/-- Python truthiness (`if t:` / `not v`): zero, empty containers and empty
strings are falsy; syntax-tree objects are truthy. -/
def truthy (cells : List (List Rat)) : Val → Bool
  | .num f => !(f == 0)
  | .bool b => b
  | .str s => !(s == "")
  | .map m => !m.isEmpty
  | .snap l => !l.isEmpty
  | .ref i => !(cells.getD i []).isEmpty
  | .stmt _ => true

/-- Everything in the machine dictionary except the control stack: the value
stack `val`, environment `env`, store `sto`, and the ledger heap
(`cells` with live index `cur`, see the file header). -/
structure MState where
  val : List Val
  env : EnvT
  sto : StoT
  cells : List (List Rat)
  cur : Nat
deriving DecidableEq, Repr

/-- `pushLoc`: append a location to the live ledger cell. -/
def pushLoc (m : MState) (l : Rat) : MState :=
  { m with cells := m.cells.set m.cur (m.cells.getD m.cur [] ++ [l]) }

/-- The contents of the live ledger (`self["locs"]`). -/
def liveLocs (m : MState) : List Rat := m.cells.getD m.cur []

/-- One dispatch of `ExpπAut.eval` on the already-popped control-stack entry
`c`: returns the list pushed back onto the control stack (head = new top)
and the updated machine dictionary. -/
def evalExpStep (c : Val) (m : MState) : Except PiErr (List Val × MState) :=
  match c with
  | .stmt (.sum e1 e2) => .ok ([.stmt e2, .stmt e1, .str "#SUM"], m)
  | .str "#SUM" =>
      match m.val with
      | v1 :: v2 :: vs =>
          match addV m.cells v1 v2 with
          | .ok v => .ok ([], { m with val := v :: vs })
          | .error e => .error e
      | _ => .error .stackErr
  | .stmt (.sub e1 e2) => .ok ([.stmt e2, .stmt e1, .str "#SUB"], m)
  | .str "#SUB" =>
      match m.val with
      | v1 :: v2 :: vs =>
          match subV v1 v2 with
          | .ok v => .ok ([], { m with val := v :: vs })
          | .error e => .error e
      | _ => .error .stackErr
  | .stmt (.mul e1 e2) => .ok ([.stmt e2, .stmt e1, .str "#MUL"], m)
  | .str "#MUL" =>
      match m.val with
      | v1 :: v2 :: vs =>
          match mulV v1 v2 with
          | .ok v => .ok ([], { m with val := v :: vs })
          | .error e => .error e
      | _ => .error .stackErr
  | .stmt (.num f) => .ok ([], { m with val := .num f :: m.val })
  | .stmt (.eq e1 e2) => .ok ([.stmt e2, .stmt e1, .str "#EQ"], m)
  | .str "#EQ" =>
      match m.val with
      | v1 :: v2 :: vs => .ok ([], { m with val := .bool (eqV m.cells v1 v2) :: vs })
      | _ => .error .stackErr
  | .stmt (.not e) => .ok ([.stmt e, .str "#NOT"], m)
  | .str "#NOT" =>
      match m.val with
      | v :: vs => .ok ([], { m with val := .bool (!truthy m.cells v) :: vs })
      | _ => .error .stackErr
  | _ => .error .illFormed

/-- One dispatch of `CmdπAut.eval`: its own cases, otherwise delegation to
the expression layer (the source re-pushes `c` and calls `super().eval()`,
which immediately re-pops it — the net effect is delegation on `c`). -/
def evalCmdStep (c : Val) (m : MState) : Except PiErr (List Val × MState) :=
  match c with
  | .stmt (.assign i e) =>
      -- `Assign.__init__` asserts that `i` is an `Id`, so a non-`Id` here is
      -- unconstructible in Python; `i.opr[0]` is the identifier string.
      match i with
      | .id x => .ok ([.stmt e, .str "#ASSIGN"], { m with val := .str x :: m.val })
      | _ => .error .typeErr
  | .str "#ASSIGN" =>
      match m.val with
      | v :: iv :: vs =>
          match iv with
          | .str x =>
              match lookupE m.env x with
              | some l => .ok ([], { m with val := vs, sto := setS m.sto l v })
              | none => .error .keyErr
          | _ => .error .keyErr
      | _ => .error .stackErr
  | .stmt (.id x) =>
      match lookupE m.env x with
      | some l =>
          match lookupS m.sto l with
          | some v => .ok ([], { m with val := v :: m.val })
          | none => .error .keyErr
      | none => .error .keyErr
  | .stmt (.loop be bl) =>
      .ok ([.stmt be, .str "#LOOP"],
        { m with val := .stmt bl :: .stmt (.loop be bl) :: m.val })
  | .str "#LOOP" =>
      match m.val with
      | t :: vs =>
          if truthy m.cells t then
            match vs with
            | cb :: lo :: vs' => .ok ([cb, lo], { m with val := vs' })
            | _ => .error .stackErr
          else
            match vs with
            | _ :: _ :: vs' => .ok ([], { m with val := vs' })
            | _ => .error .stackErr
      | _ => .error .stackErr
  | .stmt (.cseq c1 c2) => .ok ([.stmt c1, .stmt c2], m)
  | _ => evalExpStep c m

/-- One dispatch of `DecπAut.eval`: its own cases, otherwise delegation to
the command layer. -/
def evalDecStep (c : Val) (m : MState) : Except PiErr (List Val × MState) :=
  match c with
  | .stmt (.bind i e) => .ok ([.stmt e, .str "#BIND"], { m with val := .stmt i :: m.val })
  | .str "#BIND" =>
      match m.val with
      | l :: iv :: vs =>
          -- `Bind.__init__` asserts that the saved operand is an `Id`; a
          -- non-numeric bound value would fall outside the location
          -- discipline (Python would build the dict anyway, but such a
          -- binding never arises from constructible trees).
          match iv, l with
          | .stmt (.id x), .num q => .ok ([], { m with val := .map [(x, q)] :: vs })
          | _, _ => .error .typeErr
      | _ => .error .stackErr
  | .stmt (.dseq d1 d2) => .ok ([.stmt d1, .stmt d2, .str "#DSEQ"], m)
  | .str "#DSEQ" =>
      match m.val with
      | d2 :: d1 :: vs =>
          match d1, d2 with
          | .map m1, .map m2 => .ok ([], { m with val := .map (mergeE m1 m2) :: vs })
          | _, _ => .error .typeErr
      | _ => .error .stackErr
  | .stmt (.ref e) => .ok ([.stmt e, .str "#REF"], m)
  | .str "#REF" =>
      match m.val with
      | v :: vs =>
          let l := newLoc m.sto
          let m' := pushLoc { m with val := vs, sto := setS m.sto l v } l
          .ok ([], { m' with val := .num l :: m'.val })
      | _ => .error .stackErr
  | .stmt (.blk d cb) =>
      .ok ([.stmt d, .str "#BLKDEC"],
        { m with val := .stmt cb :: .snap (liveLocs m) :: m.val })
  | .str "#BLKDEC" =>
      match m.val with
      | dv :: cv :: vs =>
          match dv with
          | .map dm =>
              -- push the live ledger *by reference*, then the old
              -- environment; install `old.copy().update(dm)`.
              .ok ([cv, .str "#BLKCMD"],
                { m with val := .map m.env :: .ref m.cur :: vs,
                         env := mergeE m.env dm })
          | _ => .error .typeErr
      | _ => .error .stackErr
  | .str "#BLKCMD" =>
      match m.val with
      | en :: lsv :: ov :: vs =>
          match en with
          | .map e' =>
              match lsv with
              | .ref i =>
                  let ls := m.cells.getD i []
                  let st := m.sto.filter (fun kv => decide (kv.1 ∉ ls))
                  match ov with
                  | .snap l =>
                      .ok ([], { val := vs, env := e', sto := st,
                                 cells := m.cells ++ [l], cur := m.cells.length })
                  | .ref j =>
                      .ok ([], { val := vs, env := e', sto := st,
                                 cells := m.cells, cur := j })
                  | _ => .error .typeErr
              | .snap ls =>
                  let st := m.sto.filter (fun kv => decide (kv.1 ∉ ls))
                  match ov with
                  | .snap l =>
                      .ok ([], { val := vs, env := e', sto := st,
                                 cells := m.cells ++ [l], cur := m.cells.length })
                  | .ref j =>
                      .ok ([], { val := vs, env := e', sto := st,
                                 cells := m.cells, cur := j })
                  | _ => .error .typeErr
              | _ => .error .typeErr
          | _ => .error .typeErr
      | _ => .error .stackErr
  | _ => evalCmdStep c m

/-- A full machine: control stack plus the rest of the dictionary. -/
structure PiAut where
  cnt : List Val
  m : MState
deriving DecidableEq, Repr

instance {ε α : Type} [DecidableEq ε] [DecidableEq α] : DecidableEq (Except ε α) := fun a b =>
  match a, b with
  | .ok x, .ok y => if h : x = y then .isTrue (by simp [h]) else .isFalse (by simp [h])
  | .error x, .error y => if h : x = y then .isTrue (by simp [h]) else .isFalse (by simp [h])
  | .ok _, .error _ => .isFalse (by simp)
  | .error _, .ok _ => .isFalse (by simp)

/-- One `eval()` call of the composed (declaration-layer) machine: pop the
control stack and dispatch. -/
def step (s : PiAut) : Except PiErr PiAut :=
  match s.cnt with
  | [] => .error .stackErr
  | c :: k =>
      match evalDecStep c s.m with
      | .ok (p, m') => .ok ⟨p ++ k, m'⟩
      | .error e => .error e

/-- `n` consecutive `eval()` calls. -/
def stepN : Nat → PiAut → Except PiErr PiAut
  | 0, s => .ok s
  | n + 1, s =>
      match step s with
      | .ok s' => stepN n s'
      | .error e => .error e

/-- One `eval()` call of a standalone expression machine (`ExpπAut`): the
same dispatch but with no command or declaration cases. -/
def stepExp (s : PiAut) : Except PiErr PiAut :=
  match s.cnt with
  | [] => .error .stackErr
  | c :: k =>
      match evalExpStep c s.m with
      | .ok (p, m') => .ok ⟨p ++ k, m'⟩
      | .error e => .error e

/-- `n` consecutive `eval()` calls of a standalone expression machine. -/
def stepExpN : Nat → PiAut → Except PiErr PiAut
  | 0, s => .ok s
  | n + 1, s =>
      match stepExp s with
      | .ok s' => stepExpN n s'
      | .error e => .error e

/-- A fresh `DecπAut` (empty stacks, one empty live ledger) seeded with one
tree via `pushCnt`, with caller-provided initial environment and store. -/
def initAut (t : Stmt) (en : EnvT) (st : StoT) : PiAut :=
  ⟨[.stmt t], ⟨[], en, st, [[]], 0⟩⟩

/-- The location `__newLoc` would allocate right now, if the pending step is
a `#REF` combine; used to trace allocations along a run. -/
def allocsAt (s : PiAut) : List Rat :=
  match s.cnt with
  | .str "#REF" :: _ => [newLoc s.m.sto]
  | _ => []

/-- All locations allocated during (at most) `n` steps, in order. -/
def allocTrace : Nat → PiAut → List Rat
  | 0, _ => []
  | n + 1, s =>
      allocsAt s ++
        match step s with
        | .ok s' => allocTrace n s'
        | .error _ => []

/-- How many of the first `n` steps start with `c` on top of the control
stack (used to count executions of a loop body). -/
def countTop (c : Val) : Nat → PiAut → Nat
  | 0, _ => 0
  | n + 1, s =>
      (if s.cnt.head? = some c then 1 else 0) +
        match step s with
        | .ok s' => countTop c n s'
        | .error _ => 0

/-! ## Concrete programs from the notebook -/

/-- The factorial-unrolling loop of the notebook (`fac`):
`while not (y == 0.0): x := x * y; y := y - 1.0`. -/
def facLoop : Stmt :=
  .loop (.not (.eq (.id "y") (.num 0)))
    (.cseq (.assign (.id "x") (.mul (.id "x") (.id "y")))
           (.assign (.id "y") (.sub (.id "y") (.num 1))))

/-- The declarations of the notebook example (`dec`):
`x ← Ref(Num(1.0)); y ← Ref(Num(2.0))`. -/
def facDec : Stmt :=
  .dseq (.bind (.id "x") (.ref (.num 1))) (.bind (.id "y") (.ref (.num 2)))

/-- The notebook's `fac_blk` driver example. -/
def facBlk : Stmt := .blk facDec facLoop

/-- `fac_blk` pushed onto a fresh `DecπAut`, as the notebook driver does. -/
def facInit : PiAut := initAut facBlk [] []

/-- Two successive blocks, each allocating one reference: the store is
emptied by the first block's exit, so the second block's `__newLoc` hands
out location `0` a second time. -/
def reuseProg : Stmt :=
  .cseq (.blk (.bind (.id "x") (.ref (.num 1))) (.assign (.id "x") (.num 9)))
        (.blk (.bind (.id "z") (.ref (.num 2))) (.assign (.id "z") (.num 8)))

/-- `reuseProg` on a fresh machine. -/
def reuseInit : PiAut := initAut reuseProg [] []

/-- A loop body decrementing `y` by `1.0`. -/
def decrBody : Stmt := .assign (.id "y") (.sub (.id "y") (.num 1))

/-- `Loop(Not(Eq(Id("y"), Num(0.0))), decrBody)`. -/
def decrLoop : Stmt := .loop (.not (.eq (.id "y") (.num 0))) decrBody

/-- `decrLoop` on a machine whose environment binds `y` to a location
holding `2.0`. -/
def decrInit : PiAut := initAut decrLoop [("y", 0)] [(0, .num 2)]

/-! ## Run calculus: additivity, framing and splitting of `stepN` -/

theorem stepN_add (a b : Nat) (s : PiAut) :
    stepN (a + b) s =
      match stepN a s with
      | .ok s' => stepN b s'
      | .error e => .error e := by
  induction a generalizing s with
  | zero => simp [stepN]
  | succ a ih =>
      rw [Nat.succ_add]
      show (match step s with
            | .ok s' => stepN (a + b) s'
            | .error e => .error e) = _
      cases h : step s with
      | ok s' => simp [stepN, h, ih]
      | error e => simp [stepN, h]

/-- Stepping never looks below the top of the control stack: a run that
consumes a control-stack prefix `P` behaves identically over `P ++ K`. -/
theorem stepN_frame (n : Nat) (P Q K : List Val) (m m' : MState)
    (h : stepN n ⟨P, m⟩ = .ok ⟨Q, m'⟩) :
    stepN n ⟨P ++ K, m⟩ = .ok ⟨Q ++ K, m'⟩ := by
  induction n generalizing P m with
  | zero =>
      simp [stepN] at h
      simp [stepN, h.1, h.2]
  | succ n ih =>
      match P with
      | [] => simp [stepN, step] at h
      | c :: P' =>
          show (match step ⟨c :: (P' ++ K), m⟩ with
                | .ok s' => stepN n s'
                | .error e => .error e) = _
          have h' : (match step ⟨c :: P', m⟩ with
                | .ok s' => stepN n s'
                | .error e => .error e) = .ok ⟨Q, m'⟩ := h
          cases hd : evalDecStep c m with
          | ok pm =>
              rw [show step ⟨c :: P', m⟩ = .ok ⟨pm.1 ++ P', pm.2⟩ by
                simp [step, hd]] at h'
              rw [show step ⟨c :: (P' ++ K), m⟩ = .ok ⟨pm.1 ++ (P' ++ K), pm.2⟩ by
                simp [step, hd]]
              have := ih (pm.1 ++ P') pm.2 h'
              rwa [List.append_assoc] at this
          | error e =>
              rw [show step ⟨c :: P', m⟩ = .error e by simp [step, hd]] at h'
              simp at h'

/-- A completed run over `P ++ K` factors as a completed run over `P`
followed by a completed run over `K`. -/
theorem stepN_split (n : Nat) (P K : List Val) (m mf : MState)
    (h : stepN n ⟨P ++ K, m⟩ = .ok ⟨[], mf⟩) :
    ∃ k m₁, k ≤ n ∧ stepN k ⟨P, m⟩ = .ok ⟨[], m₁⟩ ∧
      stepN (n - k) ⟨K, m₁⟩ = .ok ⟨[], mf⟩ := by
  induction n generalizing P m with
  | zero =>
      match P with
      | [] => exact ⟨0, m, le_refl 0, rfl, h⟩
      | c :: P' => simp [stepN] at h
  | succ n ih =>
      match P with
      | [] => exact ⟨0, m, Nat.zero_le _, rfl, h⟩
      | c :: P' =>
          have h' : (match step ⟨c :: (P' ++ K), m⟩ with
                | .ok s' => stepN n s'
                | .error e => .error e) = .ok ⟨[], mf⟩ := h
          cases hd : evalDecStep c m with
          | ok pm =>
              rw [show step ⟨c :: (P' ++ K), m⟩ = .ok ⟨pm.1 ++ (P' ++ K), pm.2⟩ by
                simp [step, hd]] at h'
              rw [← List.append_assoc] at h'
              obtain ⟨k, m₁, hk, h1, h2⟩ := ih (pm.1 ++ P') pm.2 h'
              refine ⟨k + 1, m₁, Nat.succ_le_succ hk, ?_, ?_⟩
              · show (match step ⟨c :: P', m⟩ with
                      | .ok s' => stepN k s'
                      | .error e => .error e) = .ok ⟨[], m₁⟩
                rw [show step ⟨c :: P', m⟩ = .ok ⟨pm.1 ++ P', pm.2⟩ by
                  simp [step, hd]]
                exact h1
              · rwa [Nat.succ_sub_succ]
          | error e =>
              rw [show step ⟨c :: (P' ++ K), m⟩ = .error e by simp [step, hd]] at h'
              simp at h'

/-- A run on an empty control stack cannot step at all. -/
theorem stepN_nil (n : Nat) (m : MState) (s' : PiAut)
    (h : stepN n ⟨[], m⟩ = .ok s') : n = 0 ∧ s' = ⟨[], m⟩ := by
  cases n with
  | zero => simp [stepN] at h; exact ⟨rfl, h.symm⟩
  | succ n => simp [stepN, step] at h

/-- A completed run whose control stack starts non-empty begins with one
dispatch of the popped entry. -/
theorem run_cons {n : Nat} {c : Val} {K : List Val} {m mf : MState}
    (h : stepN n ⟨c :: K, m⟩ = .ok ⟨[], mf⟩) :
    ∃ n' p m₁, n = n' + 1 ∧ evalDecStep c m = .ok (p, m₁) ∧
      stepN n' ⟨p ++ K, m₁⟩ = .ok ⟨[], mf⟩ := by
  cases n with
  | zero => simp [stepN] at h
  | succ n =>
      have h' : (match step ⟨c :: K, m⟩ with
            | .ok s' => stepN n s'
            | .error e => .error e) = .ok ⟨[], mf⟩ := h
      cases hd : evalDecStep c m with
      | ok pm =>
          obtain ⟨p, m1⟩ := pm
          rw [show step ⟨c :: K, m⟩ = .ok ⟨p ++ K, m1⟩ by simp [step, hd]] at h'
          exact ⟨n, p, m1, rfl, rfl, h'⟩

      | error e =>
          rw [show step ⟨c :: K, m⟩ = .error e by simp [step, hd]] at h'
          simp at h'

/-- Split off the completed run of the single top entry of the control
stack. -/
theorem run_split1 {n : Nat} {c : Val} {K : List Val} {m mf : MState}
    (h : stepN n ⟨c :: K, m⟩ = .ok ⟨[], mf⟩) :
    ∃ k m₁, k ≤ n ∧ stepN k ⟨[c], m⟩ = .ok ⟨[], m₁⟩ ∧
      stepN (n - k) ⟨K, m₁⟩ = .ok ⟨[], mf⟩ :=
  stepN_split n [c] K m mf h

/-! ### Dispatch equations, one per π automaton rule -/

theorem dec_num (f : Rat) (m : MState) :
    evalDecStep (.stmt (.num f)) m = .ok ([], { m with val := .num f :: m.val }) := rfl

theorem dec_sum (e1 e2 : Stmt) (m : MState) :
    evalDecStep (.stmt (.sum e1 e2)) m = .ok ([.stmt e2, .stmt e1, .str "#SUM"], m) := rfl

theorem dec_sub (e1 e2 : Stmt) (m : MState) :
    evalDecStep (.stmt (.sub e1 e2)) m = .ok ([.stmt e2, .stmt e1, .str "#SUB"], m) := rfl

theorem dec_mul (e1 e2 : Stmt) (m : MState) :
    evalDecStep (.stmt (.mul e1 e2)) m = .ok ([.stmt e2, .stmt e1, .str "#MUL"], m) := rfl

theorem dec_eq (e1 e2 : Stmt) (m : MState) :
    evalDecStep (.stmt (.eq e1 e2)) m = .ok ([.stmt e2, .stmt e1, .str "#EQ"], m) := rfl

theorem dec_not (e : Stmt) (m : MState) :
    evalDecStep (.stmt (.not e)) m = .ok ([.stmt e, .str "#NOT"], m) := rfl

theorem dec_sumKW (v1 v2 : Val) (vs : List Val) (en : EnvT) (st : StoT)
    (cs : List (List Rat)) (cu : Nat) :
    evalDecStep (.str "#SUM") ⟨v1 :: v2 :: vs, en, st, cs, cu⟩ =
      match addV cs v1 v2 with
      | .ok v => .ok ([], ⟨v :: vs, en, st, cs, cu⟩)
      | .error e => .error e := rfl

theorem dec_subKW (v1 v2 : Val) (vs : List Val) (en : EnvT) (st : StoT)
    (cs : List (List Rat)) (cu : Nat) :
    evalDecStep (.str "#SUB") ⟨v1 :: v2 :: vs, en, st, cs, cu⟩ =
      match subV v1 v2 with
      | .ok v => .ok ([], ⟨v :: vs, en, st, cs, cu⟩)
      | .error e => .error e := rfl

theorem dec_mulKW (v1 v2 : Val) (vs : List Val) (en : EnvT) (st : StoT)
    (cs : List (List Rat)) (cu : Nat) :
    evalDecStep (.str "#MUL") ⟨v1 :: v2 :: vs, en, st, cs, cu⟩ =
      match mulV v1 v2 with
      | .ok v => .ok ([], ⟨v :: vs, en, st, cs, cu⟩)
      | .error e => .error e := rfl

theorem dec_eqKW (v1 v2 : Val) (vs : List Val) (en : EnvT) (st : StoT)
    (cs : List (List Rat)) (cu : Nat) :
    evalDecStep (.str "#EQ") ⟨v1 :: v2 :: vs, en, st, cs, cu⟩ =
      .ok ([], ⟨.bool (eqV cs v1 v2) :: vs, en, st, cs, cu⟩) := rfl

theorem dec_notKW (v : Val) (vs : List Val) (en : EnvT) (st : StoT)
    (cs : List (List Rat)) (cu : Nat) :
    evalDecStep (.str "#NOT") ⟨v :: vs, en, st, cs, cu⟩ =
      .ok ([], ⟨.bool (!truthy cs v) :: vs, en, st, cs, cu⟩) := rfl

theorem dec_id (x : String) (m : MState) :
    evalDecStep (.stmt (.id x)) m =
      match lookupE m.env x with
      | some l =>
          match lookupS m.sto l with
          | some v => .ok ([], { m with val := v :: m.val })
          | none => .error .keyErr
      | none => .error .keyErr := rfl

theorem dec_assign (x : String) (e : Stmt) (m : MState) :
    evalDecStep (.stmt (.assign (.id x) e)) m =
      .ok ([.stmt e, .str "#ASSIGN"], { m with val := .str x :: m.val }) := rfl

theorem dec_assignKW (v : Val) (x : String) (vs : List Val) (en : EnvT) (st : StoT)
    (cs : List (List Rat)) (cu : Nat) :
    evalDecStep (.str "#ASSIGN") ⟨v :: .str x :: vs, en, st, cs, cu⟩ =
      match lookupE en x with
      | some l => .ok ([], ⟨vs, en, setS st l v, cs, cu⟩)
      | none => .error .keyErr := rfl

theorem dec_loop (be bl : Stmt) (m : MState) :
    evalDecStep (.stmt (.loop be bl)) m =
      .ok ([.stmt be, .str "#LOOP"],
        { m with val := .stmt bl :: .stmt (.loop be bl) :: m.val }) := rfl

theorem dec_loopKW (t cb lo : Val) (vs : List Val) (en : EnvT) (st : StoT)
    (cs : List (List Rat)) (cu : Nat) :
    evalDecStep (.str "#LOOP") ⟨t :: cb :: lo :: vs, en, st, cs, cu⟩ =
      if truthy cs t then .ok ([cb, lo], ⟨vs, en, st, cs, cu⟩)
      else .ok ([], ⟨vs, en, st, cs, cu⟩) := by
  by_cases h : truthy cs t <;>
    simp [evalDecStep, evalCmdStep, h]

theorem dec_cseq (c1 c2 : Stmt) (m : MState) :
    evalDecStep (.stmt (.cseq c1 c2)) m = .ok ([.stmt c1, .stmt c2], m) := rfl

theorem dec_bind (i e : Stmt) (m : MState) :
    evalDecStep (.stmt (.bind i e)) m =
      .ok ([.stmt e, .str "#BIND"], { m with val := .stmt i :: m.val }) := rfl

theorem dec_bindKW (l : Val) (x : String) (vs : List Val) (en : EnvT) (st : StoT)
    (cs : List (List Rat)) (cu : Nat) :
    evalDecStep (.str "#BIND") ⟨l :: .stmt (.id x) :: vs, en, st, cs, cu⟩ =
      match l with
      | .num q => .ok ([], ⟨.map [(x, q)] :: vs, en, st, cs, cu⟩)
      | _ => .error .typeErr := by
  cases l <;> rfl

theorem dec_dseq (d1 d2 : Stmt) (m : MState) :
    evalDecStep (.stmt (.dseq d1 d2)) m =
      .ok ([.stmt d1, .stmt d2, .str "#DSEQ"], m) := rfl

theorem dec_dseqKW (m2v m1v : List (String × Rat)) (vs : List Val) (en : EnvT) (st : StoT)
    (cs : List (List Rat)) (cu : Nat) :
    evalDecStep (.str "#DSEQ") ⟨.map m2v :: .map m1v :: vs, en, st, cs, cu⟩ =
      .ok ([], ⟨.map (mergeE m1v m2v) :: vs, en, st, cs, cu⟩) := rfl

theorem dec_ref (e : Stmt) (m : MState) :
    evalDecStep (.stmt (.ref e)) m = .ok ([.stmt e, .str "#REF"], m) := rfl

theorem dec_refKW (v : Val) (vs : List Val) (en : EnvT) (st : StoT)
    (cs : List (List Rat)) (cu : Nat) :
    evalDecStep (.str "#REF") ⟨v :: vs, en, st, cs, cu⟩ =
      .ok ([], ⟨.num (newLoc st) :: vs, en, setS st (newLoc st) v,
        cs.set cu (cs.getD cu [] ++ [newLoc st]), cu⟩) := rfl

theorem dec_blk (d cb : Stmt) (m : MState) :
    evalDecStep (.stmt (.blk d cb)) m =
      .ok ([.stmt d, .str "#BLKDEC"],
        { m with val := .stmt cb :: .snap (liveLocs m) :: m.val }) := rfl

theorem dec_blkDecKW (dm : List (String × Rat)) (cv : Val) (vs : List Val) (en : EnvT)
    (st : StoT) (cs : List (List Rat)) (cu : Nat) :
    evalDecStep (.str "#BLKDEC") ⟨.map dm :: cv :: vs, en, st, cs, cu⟩ =
      .ok ([cv, .str "#BLKCMD"],
        ⟨.map en :: .ref cu :: vs, mergeE en dm, st, cs, cu⟩) := rfl

theorem dec_blkCmdKW (e' : List (String × Rat)) (i : Nat) (l : List Rat) (vs : List Val)
    (en : EnvT) (st : StoT) (cs : List (List Rat)) (cu : Nat) :
    evalDecStep (.str "#BLKCMD") ⟨.map e' :: .ref i :: .snap l :: vs, en, st, cs, cu⟩ =
      .ok ([], ⟨vs, e',
        st.filter (fun kv => decide (kv.1 ∉ cs.getD i [])), cs ++ [l], cs.length⟩) := rfl

theorem dec_cns_delegates (e : Stmt) (m : MState) :
    evalDecStep (.stmt (.cns e)) m = evalCmdStep (.stmt (.cns e)) m := rfl

theorem cmd_cns_delegates (e : Stmt) (m : MState) :
    evalCmdStep (.stmt (.cns e)) m = evalExpStep (.stmt (.cns e)) m := rfl

theorem exp_cns_illFormed (e : Stmt) (m : MState) :
    evalExpStep (.stmt (.cns e)) m = .error .illFormed := rfl

theorem isExpT_of_isBoolT {t : Stmt} (h : isBoolT t = true) : isExpT t = true := by
  cases t <;> simp_all [isBoolT, isExpT]

theorem wfT_sum {e1 e2 : Stmt} (h : wfT (.sum e1 e2) = true) :
    isExpT e1 = true ∧ isExpT e2 = true ∧ wfT e1 = true ∧ wfT e2 = true := by
  simp [wfT] at h; tauto

theorem wfT_sub {e1 e2 : Stmt} (h : wfT (.sub e1 e2) = true) :
    isExpT e1 = true ∧ isExpT e2 = true ∧ wfT e1 = true ∧ wfT e2 = true := by
  simp [wfT] at h; tauto

theorem wfT_mul {e1 e2 : Stmt} (h : wfT (.mul e1 e2) = true) :
    isExpT e1 = true ∧ isExpT e2 = true ∧ wfT e1 = true ∧ wfT e2 = true := by
  simp [wfT] at h; tauto

theorem wfT_eqc {e1 e2 : Stmt} (h : wfT (.eq e1 e2) = true) :
    isExpT e1 = true ∧ isExpT e2 = true ∧ wfT e1 = true ∧ wfT e2 = true := by
  simp [wfT] at h; tauto

theorem wfT_not {e : Stmt} (h : wfT (.not e) = true) :
    isExpT e = true ∧ wfT e = true := by
  simp [wfT] at h; tauto

theorem wfT_assign {i e : Stmt} (h : wfT (.assign i e) = true) :
    (∃ x, i = .id x) ∧ isExpT e = true ∧ wfT e = true := by
  simp [wfT] at h
  refine ⟨?_, by tauto, by tauto⟩
  have hi : isIdT i = true := by tauto
  cases i <;> simp_all [isIdT]

theorem wfT_loop {be c : Stmt} (h : wfT (.loop be c) = true) :
    isExpT be = true ∧ isCmdT c = true ∧ wfT be = true ∧ wfT c = true := by
  simp [wfT] at h
  exact ⟨isExpT_of_isBoolT (by tauto), by tauto, by tauto, by tauto⟩

theorem wfT_cseq {c1 c2 : Stmt} (h : wfT (.cseq c1 c2) = true) :
    isCmdT c1 = true ∧ isCmdT c2 = true ∧ wfT c1 = true ∧ wfT c2 = true := by
  simp [wfT] at h; tauto

theorem wfT_bind {i e : Stmt} (h : wfT (.bind i e) = true) :
    (∃ x, i = .id x) ∧ isExpT e = true ∧ wfT e = true := by
  simp [wfT] at h
  refine ⟨?_, by tauto, by tauto⟩
  have hi : isIdT i = true := by tauto
  cases i <;> simp_all [isIdT]

theorem wfT_ref {e : Stmt} (h : wfT (.ref e) = true) :
    isExpT e = true ∧ wfT e = true := by
  simp [wfT] at h; tauto

theorem wfT_blk {d c : Stmt} (h : wfT (.blk d c) = true) :
    isDecT d = true ∧ isCmdT c = true ∧ wfT d = true ∧ wfT c = true := by
  simp [wfT] at h; tauto

theorem wfT_dseq {d1 d2 : Stmt} (h : wfT (.dseq d1 d2) = true) :
    isDecT d1 = true ∧ isDecT d2 = true ∧ wfT d1 = true ∧ wfT d2 = true := by
  simp [wfT] at h; tauto

/-- Frame discipline of completed runs of one constructible tree: the run
restores the environment it started from, pushes exactly one value
(expressions), nothing (commands) or one name-to-location mapping
(declarations) onto the value stack it started from, and expression and
declaration runs keep the live ledger-cell index. -/
theorem runDiscipline :
    ∀ (n : Nat) (t : Stmt) (m m' : MState), wfT t = true →
      stepN n ⟨[.stmt t], m⟩ = .ok ⟨[], m'⟩ →
      m'.env = m.env ∧
      (isExpT t = true → ∃ v, m'.val = v :: m.val) ∧
      (isCmdT t = true → m'.val = m.val) ∧
      (isDecT t = true → ∃ dm, m'.val = .map dm :: m.val) ∧
      ((isExpT t || isDecT t) = true → m'.cur = m.cur) := by
  intro n
  induction n using Nat.strong_induction_on with
  | _ n IH =>
  intro t m m' hwf h
  cases t with
  | num f =>
      obtain ⟨n₁, p, m₁, rfl, hd, hr⟩ := run_cons h
      rw [dec_num] at hd
      injection hd with h2
      injection h2 with hp hm
      subst hp; subst hm
      rw [List.nil_append] at hr
      obtain ⟨-, hfin⟩ := stepN_nil n₁ _ _ hr
      injection hfin with _ hm'
      subst hm'
      exact ⟨rfl, fun _ => ⟨.num f, rfl⟩, fun hc => absurd hc (by simp [isCmdT]),
        fun hdc => absurd hdc (by simp [isDecT]), fun _ => rfl⟩
  | id x =>
      obtain ⟨n₁, p, m₁, rfl, hd, hr⟩ := run_cons h
      rw [dec_id] at hd
      cases hl : lookupE m.env x with
      | none => rw [hl] at hd; simp at hd
      | some l =>
          simp only [hl] at hd
          cases hs : lookupS m.sto l with
          | none => simp only [hs] at hd; simp at hd
          | some v =>
              simp only [hs] at hd
              injection hd with h2
              injection h2 with hp hm
              subst hp; subst hm
              rw [List.nil_append] at hr
              obtain ⟨-, hfin⟩ := stepN_nil n₁ _ _ hr
              injection hfin with _ hm'
              subst hm'
              exact ⟨rfl, fun _ => ⟨v, rfl⟩, fun hc => absurd hc (by simp [isCmdT]),
                fun hdc => absurd hdc (by simp [isDecT]), fun _ => rfl⟩
  | cns e =>
      obtain ⟨n₁, p, m₁, rfl, hd, hr⟩ := run_cons h
      rw [dec_cns_delegates, cmd_cns_delegates, exp_cns_illFormed] at hd
      simp at hd
  | sum e1 e2 =>
      obtain ⟨he1, he2, hw1, hw2⟩ := wfT_sum hwf
      obtain ⟨n₁, p, m₁, rfl, hd, hr⟩ := run_cons h
      rw [dec_sum] at hd
      injection hd with h2
      injection h2 with hp hm
      subst hp; subst hm
      rw [List.append_nil] at hr
      obtain ⟨k₁, ma, hk₁, hrun1, hrest1⟩ := run_split1 hr
      obtain ⟨henv1, hexp1, -, -, hcur1⟩ := IH k₁ (by omega) e2 m ma hw2 hrun1
      obtain ⟨v₂, hval1⟩ := hexp1 he2
      obtain ⟨k₂, mb, hk₂, hrun2, hrest2⟩ := run_split1 hrest1
      obtain ⟨henv2, hexp2, -, -, hcur2⟩ := IH k₂ (by omega) e1 ma mb hw1 hrun2
      obtain ⟨v₁, hval2⟩ := hexp2 he1
      obtain ⟨r, p₂, m₂, hreq, hd2, hrr⟩ := run_cons hrest2
      obtain ⟨Vb, enb, stb, csb, cub⟩ := mb
      have hVb : Vb = v₁ :: ma.val := hval2
      subst hVb
      rw [hval1, dec_sumKW] at hd2
      cases hadd : addV csb v₁ v₂ with
      | error e => rw [hadd] at hd2; simp at hd2
      | ok v =>
          rw [hadd] at hd2
          injection hd2 with h3
          injection h3 with hp2 hm2
          subst hp2; subst hm2
          rw [List.nil_append] at hrr
          obtain ⟨-, hfin⟩ := stepN_nil r _ _ hrr
          injection hfin with _ hm'
          subst hm'
          refine ⟨henv2.trans henv1, fun _ => ⟨v, rfl⟩,
            fun hc => absurd hc (by simp [isCmdT]),
            fun hdc => absurd hdc (by simp [isDecT]),
            fun _ => (hcur2 (by simp [he1])).trans (hcur1 (by simp [he2]))⟩
  | sub e1 e2 =>
      obtain ⟨he1, he2, hw1, hw2⟩ := wfT_sub hwf
      obtain ⟨n₁, p, m₁, rfl, hd, hr⟩ := run_cons h
      rw [dec_sub] at hd
      injection hd with h2
      injection h2 with hp hm
      subst hp; subst hm
      rw [List.append_nil] at hr
      obtain ⟨k₁, ma, hk₁, hrun1, hrest1⟩ := run_split1 hr
      obtain ⟨henv1, hexp1, -, -, hcur1⟩ := IH k₁ (by omega) e2 m ma hw2 hrun1
      obtain ⟨v₂, hval1⟩ := hexp1 he2
      obtain ⟨k₂, mb, hk₂, hrun2, hrest2⟩ := run_split1 hrest1
      obtain ⟨henv2, hexp2, -, -, hcur2⟩ := IH k₂ (by omega) e1 ma mb hw1 hrun2
      obtain ⟨v₁, hval2⟩ := hexp2 he1
      obtain ⟨r, p₂, m₂, hreq, hd2, hrr⟩ := run_cons hrest2
      obtain ⟨Vb, enb, stb, csb, cub⟩ := mb
      have hVb : Vb = v₁ :: ma.val := hval2
      subst hVb
      rw [hval1, dec_subKW] at hd2
      cases hadd : subV v₁ v₂ with
      | error e => rw [hadd] at hd2; simp at hd2
      | ok v =>
          rw [hadd] at hd2
          injection hd2 with h3
          injection h3 with hp2 hm2
          subst hp2; subst hm2
          rw [List.nil_append] at hrr
          obtain ⟨-, hfin⟩ := stepN_nil r _ _ hrr
          injection hfin with _ hm'
          subst hm'
          refine ⟨henv2.trans henv1, fun _ => ⟨v, rfl⟩,
            fun hc => absurd hc (by simp [isCmdT]),
            fun hdc => absurd hdc (by simp [isDecT]),
            fun _ => (hcur2 (by simp [he1])).trans (hcur1 (by simp [he2]))⟩
  | mul e1 e2 =>
      obtain ⟨he1, he2, hw1, hw2⟩ := wfT_mul hwf
      obtain ⟨n₁, p, m₁, rfl, hd, hr⟩ := run_cons h
      rw [dec_mul] at hd
      injection hd with h2
      injection h2 with hp hm
      subst hp; subst hm
      rw [List.append_nil] at hr
      obtain ⟨k₁, ma, hk₁, hrun1, hrest1⟩ := run_split1 hr
      obtain ⟨henv1, hexp1, -, -, hcur1⟩ := IH k₁ (by omega) e2 m ma hw2 hrun1
      obtain ⟨v₂, hval1⟩ := hexp1 he2
      obtain ⟨k₂, mb, hk₂, hrun2, hrest2⟩ := run_split1 hrest1
      obtain ⟨henv2, hexp2, -, -, hcur2⟩ := IH k₂ (by omega) e1 ma mb hw1 hrun2
      obtain ⟨v₁, hval2⟩ := hexp2 he1
      obtain ⟨r, p₂, m₂, hreq, hd2, hrr⟩ := run_cons hrest2
      obtain ⟨Vb, enb, stb, csb, cub⟩ := mb
      have hVb : Vb = v₁ :: ma.val := hval2
      subst hVb
      rw [hval1, dec_mulKW] at hd2
      cases hadd : mulV v₁ v₂ with
      | error e => rw [hadd] at hd2; simp at hd2
      | ok v =>
          rw [hadd] at hd2
          injection hd2 with h3
          injection h3 with hp2 hm2
          subst hp2; subst hm2
          rw [List.nil_append] at hrr
          obtain ⟨-, hfin⟩ := stepN_nil r _ _ hrr
          injection hfin with _ hm'
          subst hm'
          refine ⟨henv2.trans henv1, fun _ => ⟨v, rfl⟩,
            fun hc => absurd hc (by simp [isCmdT]),
            fun hdc => absurd hdc (by simp [isDecT]),
            fun _ => (hcur2 (by simp [he1])).trans (hcur1 (by simp [he2]))⟩
  | eq e1 e2 =>
      obtain ⟨he1, he2, hw1, hw2⟩ := wfT_eqc hwf
      obtain ⟨n₁, p, m₁, rfl, hd, hr⟩ := run_cons h
      rw [dec_eq] at hd
      injection hd with h2
      injection h2 with hp hm
      subst hp; subst hm
      rw [List.append_nil] at hr
      obtain ⟨k₁, ma, hk₁, hrun1, hrest1⟩ := run_split1 hr
      obtain ⟨henv1, hexp1, -, -, hcur1⟩ := IH k₁ (by omega) e2 m ma hw2 hrun1
      obtain ⟨v₂, hval1⟩ := hexp1 he2
      obtain ⟨k₂, mb, hk₂, hrun2, hrest2⟩ := run_split1 hrest1
      obtain ⟨henv2, hexp2, -, -, hcur2⟩ := IH k₂ (by omega) e1 ma mb hw1 hrun2
      obtain ⟨v₁, hval2⟩ := hexp2 he1
      obtain ⟨r, p₂, m₂, hreq, hd2, hrr⟩ := run_cons hrest2
      obtain ⟨Vb, enb, stb, csb, cub⟩ := mb
      have hVb : Vb = v₁ :: ma.val := hval2
      subst hVb
      rw [hval1, dec_eqKW] at hd2
      injection hd2 with h3
      injection h3 with hp2 hm2
      subst hp2; subst hm2
      rw [List.nil_append] at hrr
      obtain ⟨-, hfin⟩ := stepN_nil r _ _ hrr
      injection hfin with _ hm'
      subst hm'
      refine ⟨henv2.trans henv1, fun _ => ⟨.bool (eqV csb v₁ v₂), rfl⟩,
        fun hc => absurd hc (by simp [isCmdT]),
        fun hdc => absurd hdc (by simp [isDecT]),
        fun _ => (hcur2 (by simp [he1])).trans (hcur1 (by simp [he2]))⟩
  | not e =>
      obtain ⟨he, hwe⟩ := wfT_not hwf
      obtain ⟨n₁, p, m₁, rfl, hd, hr⟩ := run_cons h
      rw [dec_not] at hd
      injection hd with h2
      injection h2 with hp hm
      subst hp; subst hm
      rw [List.append_nil] at hr
      obtain ⟨k₁, ma, hk₁, hrun1, hrest1⟩ := run_split1 hr
      obtain ⟨henv1, hexp1, -, -, hcur1⟩ := IH k₁ (by omega) e m ma hwe hrun1
      obtain ⟨v, hval1⟩ := hexp1 he
      obtain ⟨r, p₂, m₂, hreq, hd2, hrr⟩ := run_cons hrest1
      obtain ⟨Va, ena, sta, csa, cua⟩ := ma
      have hVa : Va = v :: m.val := hval1
      subst hVa
      rw [dec_notKW] at hd2
      injection hd2 with h3
      injection h3 with hp2 hm2
      subst hp2; subst hm2
      rw [List.nil_append] at hrr
      obtain ⟨-, hfin⟩ := stepN_nil r _ _ hrr
      injection hfin with _ hm'
      subst hm'
      refine ⟨henv1, fun _ => ⟨.bool (!truthy csa v), rfl⟩,
        fun hc => absurd hc (by simp [isCmdT]),
        fun hdc => absurd hdc (by simp [isDecT]),
        fun _ => hcur1 (by simp [he])⟩
  | assign i e =>
      obtain ⟨⟨x, rfl⟩, he, hwe⟩ := wfT_assign hwf
      obtain ⟨n₁, p, m₁, rfl, hd, hr⟩ := run_cons h
      rw [dec_assign] at hd
      injection hd with h2
      injection h2 with hp hm
      subst hp; subst hm
      rw [List.append_nil] at hr
      obtain ⟨k₁, ma, hk₁, hrun1, hrest1⟩ := run_split1 hr
      obtain ⟨henv1, hexp1, -, -, hcur1⟩ := IH k₁ (by omega) e _ ma hwe hrun1
      obtain ⟨v, hval1⟩ := hexp1 he
      obtain ⟨r, p₂, m₂, hreq, hd2, hrr⟩ := run_cons hrest1
      obtain ⟨Va, ena, sta, csa, cua⟩ := ma
      have hVa : Va = v :: .str x :: m.val := hval1
      subst hVa
      rw [dec_assignKW] at hd2
      cases hl : lookupE ena x with
      | none => rw [hl] at hd2; simp at hd2
      | some l =>
          rw [hl] at hd2
          injection hd2 with h3
          injection h3 with hp2 hm2
          subst hp2; subst hm2
          rw [List.nil_append] at hrr
          obtain ⟨-, hfin⟩ := stepN_nil r _ _ hrr
          injection hfin with _ hm'
          subst hm'
          exact ⟨henv1, fun he' => absurd he' (by simp [isExpT]),
            fun _ => rfl, fun hdc => absurd hdc (by simp [isDecT]),
            fun hcu => absurd hcu (by simp [isExpT, isDecT])⟩
  | loop be bl =>
      obtain ⟨hbe, hbl, hwbe, hwbl⟩ := wfT_loop hwf
      obtain ⟨n₁, p, m₁, rfl, hd, hr⟩ := run_cons h
      rw [dec_loop] at hd
      injection hd with h2
      injection h2 with hp hm
      subst hp; subst hm
      rw [List.append_nil] at hr
      obtain ⟨k₁, ma, hk₁, hrun1, hrest1⟩ := run_split1 hr
      obtain ⟨henv1, hexp1, -, -, hcur1⟩ := IH k₁ (by omega) be _ ma hwbe hrun1
      obtain ⟨tv, hval1⟩ := hexp1 hbe
      obtain ⟨r, p₂, m₂, hreq, hd2, hrr⟩ := run_cons hrest1
      obtain ⟨Va, ena, sta, csa, cua⟩ := ma
      have hVa : Va = tv :: .stmt bl :: .stmt (.loop be bl) :: m.val := hval1
      subst hVa
      rw [dec_loopKW] at hd2
      by_cases ht : truthy csa tv
      · rw [if_pos ht] at hd2
        injection hd2 with h3
        injection h3 with hp2 hm2
        subst hp2; subst hm2
        rw [List.append_nil] at hrr
        obtain ⟨k₂, mc, hk₂, hrun2, hrest2⟩ := run_split1 hrr
        obtain ⟨henv2, -, hcmd2, -, -⟩ := IH k₂ (by omega) bl _ mc hwbl hrun2
        obtain ⟨henv3, -, hcmd3, -, -⟩ :=
          IH (r - k₂) (by omega) (.loop be bl) mc m' hwf hrest2
        refine ⟨?_, fun he' => absurd he' (by simp [isExpT]), fun _ => ?_,
          fun hdc => absurd hdc (by simp [isDecT]),
          fun hcu => absurd hcu (by simp [isExpT, isDecT])⟩
        · exact (henv3.trans henv2).trans henv1
        · exact (hcmd3 (by simp [isCmdT])).trans (hcmd2 hbl)
      · rw [if_neg ht] at hd2
        injection hd2 with h3
        injection h3 with hp2 hm2
        subst hp2; subst hm2
        rw [List.nil_append] at hrr
        obtain ⟨-, hfin⟩ := stepN_nil r _ _ hrr
        injection hfin with _ hm'
        subst hm'
        exact ⟨henv1, fun he' => absurd he' (by simp [isExpT]),
          fun _ => rfl, fun hdc => absurd hdc (by simp [isDecT]),
          fun hcu => absurd hcu (by simp [isExpT, isDecT])⟩
  | cseq c1 c2 =>
      obtain ⟨hc1, hc2, hw1, hw2⟩ := wfT_cseq hwf
      obtain ⟨n₁, p, m₁, rfl, hd, hr⟩ := run_cons h
      rw [dec_cseq] at hd
      injection hd with h2
      injection h2 with hp hm
      subst hp; subst hm
      rw [List.append_nil] at hr
      obtain ⟨k₁, ma, hk₁, hrun1, hrest1⟩ := run_split1 hr
      obtain ⟨henv1, -, hcmd1, -, -⟩ := IH k₁ (by omega) c1 m ma hw1 hrun1
      obtain ⟨henv2, -, hcmd2, -, -⟩ := IH (n₁ - k₁) (by omega) c2 ma m' hw2 hrest1
      refine ⟨henv2.trans henv1, fun he' => absurd he' (by simp [isExpT]), fun _ => ?_,
        fun hdc => absurd hdc (by simp [isDecT]),
        fun hcu => absurd hcu (by simp [isExpT, isDecT])⟩
      exact (hcmd2 hc2).trans (hcmd1 hc1)
  | bind i e =>
      obtain ⟨⟨x, rfl⟩, he, hwe⟩ := wfT_bind hwf
      obtain ⟨n₁, p, m₁, rfl, hd, hr⟩ := run_cons h
      rw [dec_bind] at hd
      injection hd with h2
      injection h2 with hp hm
      subst hp; subst hm
      rw [List.append_nil] at hr
      obtain ⟨k₁, ma, hk₁, hrun1, hrest1⟩ := run_split1 hr
      obtain ⟨henv1, hexp1, -, -, hcur1⟩ := IH k₁ (by omega) e _ ma hwe hrun1
      obtain ⟨v, hval1⟩ := hexp1 he
      obtain ⟨r, p₂, m₂, hreq, hd2, hrr⟩ := run_cons hrest1
      obtain ⟨Va, ena, sta, csa, cua⟩ := ma
      have hVa : Va = v :: .stmt (.id x) :: m.val := hval1
      subst hVa
      rw [dec_bindKW] at hd2
      cases v with
      | num q =>
          injection hd2 with h3
          injection h3 with hp2 hm2
          subst hp2; subst hm2
          rw [List.nil_append] at hrr
          obtain ⟨-, hfin⟩ := stepN_nil r _ _ hrr
          injection hfin with _ hm'
          subst hm'
          exact ⟨henv1, fun he' => absurd he' (by simp [isExpT]),
            fun hc => absurd hc (by simp [isCmdT]),
            fun _ => ⟨[(x, q)], rfl⟩, fun _ => hcur1 (by simp [he])⟩
      | bool b => simp at hd2
      | str s => simp at hd2
      | map mm => simp at hd2
      | snap sl => simp at hd2
      | ref ii => simp at hd2
      | stmt tt => simp at hd2
  | dseq d1 d2 =>
      obtain ⟨hd1, hd2', hw1, hw2⟩ := wfT_dseq hwf
      obtain ⟨n₁, p, m₁, rfl, hd, hr⟩ := run_cons h
      rw [dec_dseq] at hd
      injection hd with h2
      injection h2 with hp hm
      subst hp; subst hm
      rw [List.append_nil] at hr
      obtain ⟨k₁, ma, hk₁, hrun1, hrest1⟩ := run_split1 hr
      obtain ⟨henv1, -, -, hdec1, hcur1⟩ := IH k₁ (by omega) d1 m ma hw1 hrun1
      obtain ⟨dm1, hval1⟩ := hdec1 hd1
      obtain ⟨k₂, mb, hk₂, hrun2, hrest2⟩ := run_split1 hrest1
      obtain ⟨henv2, -, -, hdec2, hcur2⟩ := IH k₂ (by omega) d2 ma mb hw2 hrun2
      obtain ⟨dm2, hval2⟩ := hdec2 hd2'
      obtain ⟨r, p₂, m₂, hreq, hdd, hrr⟩ := run_cons hrest2
      obtain ⟨Vb, enb, stb, csb, cub⟩ := mb
      have hVb : Vb = .map dm2 :: ma.val := hval2
      subst hVb
      rw [hval1, dec_dseqKW] at hdd
      injection hdd with h3
      injection h3 with hp2 hm2
      subst hp2; subst hm2
      rw [List.nil_append] at hrr
      obtain ⟨-, hfin⟩ := stepN_nil r _ _ hrr
      injection hfin with _ hm'
      subst hm'
      refine ⟨henv2.trans henv1, fun he' => absurd he' (by simp [isExpT]),
        fun hc => absurd hc (by simp [isCmdT]),
        fun _ => ⟨mergeE dm1 dm2, rfl⟩,
        fun _ => (hcur2 (by simp [hd2'])).trans (hcur1 (by simp [hd1]))⟩
  | ref e =>
      obtain ⟨he, hwe⟩ := wfT_ref hwf
      obtain ⟨n₁, p, m₁, rfl, hd, hr⟩ := run_cons h
      rw [dec_ref] at hd
      injection hd with h2
      injection h2 with hp hm
      subst hp; subst hm
      rw [List.append_nil] at hr
      obtain ⟨k₁, ma, hk₁, hrun1, hrest1⟩ := run_split1 hr
      obtain ⟨henv1, hexp1, -, -, hcur1⟩ := IH k₁ (by omega) e m ma hwe hrun1
      obtain ⟨v, hval1⟩ := hexp1 he
      obtain ⟨r, p₂, m₂, hreq, hd2, hrr⟩ := run_cons hrest1
      obtain ⟨Va, ena, sta, csa, cua⟩ := ma
      have hVa : Va = v :: m.val := hval1
      subst hVa
      rw [dec_refKW] at hd2
      injection hd2 with h3
      injection h3 with hp2 hm2
      subst hp2; subst hm2
      rw [List.nil_append] at hrr
      obtain ⟨-, hfin⟩ := stepN_nil r _ _ hrr
      injection hfin with _ hm'
      subst hm'
      refine ⟨henv1, fun _ => ⟨.num (newLoc sta), rfl⟩,
        fun hc => absurd hc (by simp [isCmdT]),
        fun hdc => absurd hdc (by simp [isDecT]),
        fun _ => hcur1 (by simp [he])⟩
  | blk d cb =>
      obtain ⟨hdd, hcc, hwd, hwc⟩ := wfT_blk hwf
      obtain ⟨n₁, p, m₁, rfl, hd, hr⟩ := run_cons h
      rw [dec_blk] at hd
      injection hd with h2
      injection h2 with hp hm
      subst hp; subst hm
      rw [List.append_nil] at hr
      obtain ⟨k₁, ma, hk₁, hrun1, hrest1⟩ := run_split1 hr
      obtain ⟨henv1, -, -, hdec1, hcur1⟩ := IH k₁ (by omega) d _ ma hwd hrun1
      obtain ⟨dm, hval1⟩ := hdec1 hdd
      obtain ⟨r, p₂, m₂, hreq, hd2, hrr⟩ := run_cons hrest1
      obtain ⟨Va, ena, sta, csa, cua⟩ := ma
      have hVa : Va = .map dm :: .stmt cb :: .snap (liveLocs m) :: m.val := hval1
      subst hVa
      rw [dec_blkDecKW] at hd2
      injection hd2 with h3
      injection h3 with hp2 hm2
      subst hp2; subst hm2
      rw [List.append_nil] at hrr
      obtain ⟨k₂, mc, hk₂, hrun2, hrest2⟩ := run_split1 hrr
      obtain ⟨henv2, -, hcmd2, -, -⟩ := IH k₂ (by omega) cb _ mc hwc hrun2
      have hval2 := hcmd2 hcc
      obtain ⟨r₂, p₃, m₃, hreq2, hd3, hrr2⟩ := run_cons hrest2
      obtain ⟨Vc, enc, stc, csc, cuc⟩ := mc
      have hVc : Vc = .map ena :: .ref cua :: .snap (liveLocs m) :: m.val := hval2
      subst hVc
      rw [dec_blkCmdKW] at hd3
      injection hd3 with h4
      injection h4 with hp3 hm3
      subst hp3; subst hm3
      rw [List.nil_append] at hrr2
      obtain ⟨-, hfin⟩ := stepN_nil r₂ _ _ hrr2
      injection hfin with _ hm'
      subst hm'
      exact ⟨henv1, fun he' => absurd he' (by simp [isExpT]),
        fun _ => rfl, fun hdc => absurd hdc (by simp [isDecT]),
        fun hcu => absurd hcu (by simp [isExpT, isDecT])⟩

/-- Completed runs of pure expressions (no `Id`, `Ref`, `Cns`, commands or
declarations) leave the environment, the store and the ledger cells exactly
as they were and push exactly one value. -/
theorem pureFrame :
    ∀ (n : Nat) (t : Stmt) (m m' : MState), pureT t = true →
      stepN n ⟨[.stmt t], m⟩ = .ok ⟨[], m'⟩ →
      m'.env = m.env ∧ m'.sto = m.sto ∧ m'.cells = m.cells ∧ m'.cur = m.cur ∧
        ∃ v, m'.val = v :: m.val := by
  intro n
  induction n using Nat.strong_induction_on with
  | _ n IH =>
  intro t m m' hp h
  cases t with
  | num f =>
      obtain ⟨n₁, p, m₁, rfl, hd, hr⟩ := run_cons h
      rw [dec_num] at hd
      injection hd with h2
      injection h2 with hpp hm
      subst hpp; subst hm
      rw [List.nil_append] at hr
      obtain ⟨-, hfin⟩ := stepN_nil n₁ _ _ hr
      injection hfin with _ hm'
      subst hm'
      exact ⟨rfl, rfl, rfl, rfl, .num f, rfl⟩
  | sum e1 e2 =>
      simp only [pureT, Bool.and_eq_true] at hp
      obtain ⟨n₁, p, m₁, rfl, hd, hr⟩ := run_cons h
      rw [dec_sum] at hd
      injection hd with h2
      injection h2 with hpp hm
      subst hpp; subst hm
      rw [List.append_nil] at hr
      obtain ⟨k₁, ma, hk₁, hrun1, hrest1⟩ := run_split1 hr
      obtain ⟨henv1, hsto1, hcs1, hcur1, v₂, hval1⟩ := IH k₁ (by omega) e2 m ma hp.2 hrun1
      obtain ⟨k₂, mb, hk₂, hrun2, hrest2⟩ := run_split1 hrest1
      obtain ⟨henv2, hsto2, hcs2, hcur2, v₁, hval2⟩ := IH k₂ (by omega) e1 ma mb hp.1 hrun2
      obtain ⟨r, p₂, m₂, hreq, hd2, hrr⟩ := run_cons hrest2
      obtain ⟨Vb, enb, stb, csb, cub⟩ := mb
      have hVb : Vb = v₁ :: ma.val := hval2
      subst hVb
      rw [hval1, dec_sumKW] at hd2
      cases hadd : addV csb v₁ v₂ with
      | error e => rw [hadd] at hd2; simp at hd2
      | ok v =>
          rw [hadd] at hd2
          injection hd2 with h3
          injection h3 with hp2 hm2
          subst hp2; subst hm2
          rw [List.nil_append] at hrr
          obtain ⟨-, hfin⟩ := stepN_nil r _ _ hrr
          injection hfin with _ hm'
          subst hm'
          exact ⟨henv2.trans henv1, hsto2.trans hsto1, hcs2.trans hcs1,
            hcur2.trans hcur1, v, rfl⟩
  | sub e1 e2 =>
      simp only [pureT, Bool.and_eq_true] at hp
      obtain ⟨n₁, p, m₁, rfl, hd, hr⟩ := run_cons h
      rw [dec_sub] at hd
      injection hd with h2
      injection h2 with hpp hm
      subst hpp; subst hm
      rw [List.append_nil] at hr
      obtain ⟨k₁, ma, hk₁, hrun1, hrest1⟩ := run_split1 hr
      obtain ⟨henv1, hsto1, hcs1, hcur1, v₂, hval1⟩ := IH k₁ (by omega) e2 m ma hp.2 hrun1
      obtain ⟨k₂, mb, hk₂, hrun2, hrest2⟩ := run_split1 hrest1
      obtain ⟨henv2, hsto2, hcs2, hcur2, v₁, hval2⟩ := IH k₂ (by omega) e1 ma mb hp.1 hrun2
      obtain ⟨r, p₂, m₂, hreq, hd2, hrr⟩ := run_cons hrest2
      obtain ⟨Vb, enb, stb, csb, cub⟩ := mb
      have hVb : Vb = v₁ :: ma.val := hval2
      subst hVb
      rw [hval1, dec_subKW] at hd2
      cases hadd : subV v₁ v₂ with
      | error e => rw [hadd] at hd2; simp at hd2
      | ok v =>
          rw [hadd] at hd2
          injection hd2 with h3
          injection h3 with hp2 hm2
          subst hp2; subst hm2
          rw [List.nil_append] at hrr
          obtain ⟨-, hfin⟩ := stepN_nil r _ _ hrr
          injection hfin with _ hm'
          subst hm'
          exact ⟨henv2.trans henv1, hsto2.trans hsto1, hcs2.trans hcs1,
            hcur2.trans hcur1, v, rfl⟩
  | mul e1 e2 =>
      simp only [pureT, Bool.and_eq_true] at hp
      obtain ⟨n₁, p, m₁, rfl, hd, hr⟩ := run_cons h
      rw [dec_mul] at hd
      injection hd with h2
      injection h2 with hpp hm
      subst hpp; subst hm
      rw [List.append_nil] at hr
      obtain ⟨k₁, ma, hk₁, hrun1, hrest1⟩ := run_split1 hr
      obtain ⟨henv1, hsto1, hcs1, hcur1, v₂, hval1⟩ := IH k₁ (by omega) e2 m ma hp.2 hrun1
      obtain ⟨k₂, mb, hk₂, hrun2, hrest2⟩ := run_split1 hrest1
      obtain ⟨henv2, hsto2, hcs2, hcur2, v₁, hval2⟩ := IH k₂ (by omega) e1 ma mb hp.1 hrun2
      obtain ⟨r, p₂, m₂, hreq, hd2, hrr⟩ := run_cons hrest2
      obtain ⟨Vb, enb, stb, csb, cub⟩ := mb
      have hVb : Vb = v₁ :: ma.val := hval2
      subst hVb
      rw [hval1, dec_mulKW] at hd2
      cases hadd : mulV v₁ v₂ with
      | error e => rw [hadd] at hd2; simp at hd2
      | ok v =>
          rw [hadd] at hd2
          injection hd2 with h3
          injection h3 with hp2 hm2
          subst hp2; subst hm2
          rw [List.nil_append] at hrr
          obtain ⟨-, hfin⟩ := stepN_nil r _ _ hrr
          injection hfin with _ hm'
          subst hm'
          exact ⟨henv2.trans henv1, hsto2.trans hsto1, hcs2.trans hcs1,
            hcur2.trans hcur1, v, rfl⟩
  | eq e1 e2 =>
      simp only [pureT, Bool.and_eq_true] at hp
      obtain ⟨n₁, p, m₁, rfl, hd, hr⟩ := run_cons h
      rw [dec_eq] at hd
      injection hd with h2
      injection h2 with hpp hm
      subst hpp; subst hm
      rw [List.append_nil] at hr
      obtain ⟨k₁, ma, hk₁, hrun1, hrest1⟩ := run_split1 hr
      obtain ⟨henv1, hsto1, hcs1, hcur1, v₂, hval1⟩ := IH k₁ (by omega) e2 m ma hp.2 hrun1
      obtain ⟨k₂, mb, hk₂, hrun2, hrest2⟩ := run_split1 hrest1
      obtain ⟨henv2, hsto2, hcs2, hcur2, v₁, hval2⟩ := IH k₂ (by omega) e1 ma mb hp.1 hrun2
      obtain ⟨r, p₂, m₂, hreq, hd2, hrr⟩ := run_cons hrest2
      obtain ⟨Vb, enb, stb, csb, cub⟩ := mb
      have hVb : Vb = v₁ :: ma.val := hval2
      subst hVb
      rw [hval1, dec_eqKW] at hd2
      injection hd2 with h3
      injection h3 with hp2 hm2
      subst hp2; subst hm2
      rw [List.nil_append] at hrr
      obtain ⟨-, hfin⟩ := stepN_nil r _ _ hrr
      injection hfin with _ hm'
      subst hm'
      exact ⟨henv2.trans henv1, hsto2.trans hsto1, hcs2.trans hcs1,
        hcur2.trans hcur1, .bool (eqV csb v₁ v₂), rfl⟩
  | not e =>
      simp only [pureT] at hp
      obtain ⟨n₁, p, m₁, rfl, hd, hr⟩ := run_cons h
      rw [dec_not] at hd
      injection hd with h2
      injection h2 with hpp hm
      subst hpp; subst hm
      rw [List.append_nil] at hr
      obtain ⟨k₁, ma, hk₁, hrun1, hrest1⟩ := run_split1 hr
      obtain ⟨henv1, hsto1, hcs1, hcur1, v, hval1⟩ := IH k₁ (by omega) e m ma hp hrun1
      obtain ⟨r, p₂, m₂, hreq, hd2, hrr⟩ := run_cons hrest1
      obtain ⟨Va, ena, sta, csa, cua⟩ := ma
      have hVa : Va = v :: m.val := hval1
      subst hVa
      rw [dec_notKW] at hd2
      injection hd2 with h3
      injection h3 with hp2 hm2
      subst hp2; subst hm2
      rw [List.nil_append] at hrr
      obtain ⟨-, hfin⟩ := stepN_nil r _ _ hrr
      injection hfin with _ hm'
      subst hm'
      exact ⟨henv1, hsto1, hcs1, hcur1, .bool (!truthy csa v), rfl⟩
  | id x => simp [pureT] at hp
  | assign i e => simp [pureT] at hp
  | loop be c => simp [pureT] at hp
  | cseq c1 c2 => simp [pureT] at hp
  | bind i e => simp [pureT] at hp
  | ref e => simp [pureT] at hp
  | cns e => simp [pureT] at hp
  | blk d c => simp [pureT] at hp
  | dseq d1 d2 => simp [pureT] at hp

theorem addV_error (cs : List (List Rat)) (v1 v2 : Val) (e : PiErr)
    (h : addV cs v1 v2 = .error e) : e = .typeErr := by
  unfold addV at h
  iterate 5 (all_goals (try split at h))
  all_goals simp_all

theorem subV_error (v1 v2 : Val) (e : PiErr) (h : subV v1 v2 = .error e) :
    e = .typeErr := by
  unfold subV at h
  iterate 5 (all_goals (try split at h))
  all_goals simp_all

theorem mulV_error (v1 v2 : Val) (e : PiErr) (h : mulV v1 v2 = .error e) :
    e = .typeErr := by
  unfold mulV at h
  iterate 5 (all_goals (try split at h))
  all_goals simp_all

/-- No dispatch of the composed machine ever produces the `MalformedTerm`
condition: that condition belongs to term construction alone. -/
theorem dec_no_malformed (c : Val) (m : MState) :
    evalDecStep c m ≠ .error .malformedTerm := by
  intro h
  unfold evalDecStep evalCmdStep evalExpStep at h
  iterate 10 (all_goals (try split at h))
  all_goals (try simp at h)
  all_goals
    (rename_i ha
     rw [h] at ha
     first
       | exact absurd (addV_error _ _ _ _ ha) (by simp)
       | exact absurd (subV_error _ _ _ ha) (by simp)
       | exact absurd (mulV_error _ _ _ ha) (by simp))

/-- `eval()` (one machine step) never raises `MalformedTerm`. -/
theorem step_no_malformed (s : PiAut) : step s ≠ .error .malformedTerm := by
  intro h
  obtain ⟨cnt, m⟩ := s
  cases cnt with
  | nil => simp [step] at h
  | cons c K =>
      rw [show step ⟨c :: K, m⟩ = (match evalDecStep c m with
            | .ok (p, m') => .ok ⟨p ++ K, m'⟩
            | .error e => .error e) from rfl] at h
      cases hd : evalDecStep c m with
      | ok pm => rw [hd] at h; simp at h
      | error e =>
          rw [hd] at h
          simp at h
          subst h
          exact dec_no_malformed c m hd

theorem getD_set_append (cs : List (List Rat)) (i : Nat) (a : List Rat) (j : Nat) :
    ∃ tl, (cs.set i (cs.getD i [] ++ a)).getD j [] = cs.getD j [] ++ tl := by
  by_cases hij : j = i
  · subst hij
    by_cases hlen : j < cs.length
    · refine ⟨a, ?_⟩
      rw [List.getD_eq_getElem?_getD, List.getElem?_set_eq_of_lt _ hlen]
      rfl
    · refine ⟨[], ?_⟩
      rw [List.set_eq_of_length_le (by omega), List.append_nil]
  · refine ⟨[], ?_⟩
    rw [List.getD_eq_getElem?_getD, List.getElem?_set_ne (by omega),
      ← List.getD_eq_getElem?_getD, List.append_nil]

theorem getD_append_last (cs : List (List Rat)) (x : List Rat) (j : Nat) :
    ∃ tl, (cs ++ [x]).getD j [] = cs.getD j [] ++ tl := by
  rcases lt_trichotomy j cs.length with hlt | heq | hgt
  · refine ⟨[], ?_⟩
    rw [List.getD_eq_getElem?_getD, List.getElem?_append_left hlt,
      ← List.getD_eq_getElem?_getD, List.append_nil]
  · subst heq
    refine ⟨x, ?_⟩
    rw [List.getD_eq_getElem?_getD, List.getElem?_concat_length,
      List.getD_eq_getElem?_getD, List.getElem?_eq_none (le_refl _)]
    simp
  · refine ⟨[], ?_⟩
    rw [List.getD_eq_getElem?_getD, List.getD_eq_getElem?_getD,
      List.getElem?_eq_none (by simp; omega), List.getElem?_eq_none (by omega)]
    rfl

/-- A single dispatch can only extend a ledger cell (by `pushLoc`) or add new
cells (block exit); no cell's existing contents are ever truncated. -/
theorem dec_cells_mono (c : Val) (m : MState) (p : List Val) (m₂ : MState)
    (h : evalDecStep c m = .ok (p, m₂)) (j : Nat) :
    ∃ tl, m₂.cells.getD j [] = m.cells.getD j [] ++ tl := by
  unfold evalDecStep evalCmdStep evalExpStep pushLoc at h
  iterate 10 (all_goals (try split at h))
  all_goals (try (exact Except.noConfusion h))
  all_goals
    (injection h with h2
     injection h2 with hp hm
     subst hm
     first
       | exact ⟨[], (List.append_nil _).symm⟩
       | exact getD_set_append m.cells m.cur [newLoc m.sto] j
       | exact getD_append_last m.cells _ j)

theorem step_cells_mono (s s' : PiAut) (h : step s = .ok s') (j : Nat) :
    ∃ tl, s'.m.cells.getD j [] = s.m.cells.getD j [] ++ tl := by
  obtain ⟨cnt, m⟩ := s
  cases cnt with
  | nil => simp [step] at h
  | cons c K =>
      rw [show step ⟨c :: K, m⟩ = (match evalDecStep c m with
            | .ok (p, m') => .ok ⟨p ++ K, m'⟩
            | .error e => .error e) from rfl] at h
      cases hd : evalDecStep c m with
      | error e => rw [hd] at h; simp at h
      | ok pm =>
          rw [hd] at h
          injection h with h'
          subst h'
          exact dec_cells_mono c m pm.1 pm.2 (by rw [hd]) j

theorem stepN_cells_mono (n : Nat) :
    ∀ (s s' : PiAut), stepN n s = .ok s' → ∀ j,
      ∃ tl, s'.m.cells.getD j [] = s.m.cells.getD j [] ++ tl := by
  induction n with
  | zero =>
      intro s s' h j
      injection h with h'
      subst h'
      exact ⟨[], (List.append_nil _).symm⟩
  | succ n ih =>
      intro s s' h j
      have h' : (match step s with
            | .ok s₁ => stepN n s₁
            | .error e => .error e) = .ok s' := h
      cases hs : step s with
      | error e => rw [hs] at h'; simp at h'
      | ok s₁ =>
          rw [hs] at h'
          obtain ⟨t1, h1⟩ := step_cells_mono s s₁ hs j
          obtain ⟨t2, h2⟩ := ih s₁ s' h' j
          exact ⟨t1 ++ t2, by rw [h2, h1, List.append_assoc]⟩

/-- The block-exit store comprehension drops every entry whose location is
in the popped ledger. -/
theorem lookupS_filter_not_mem (st : StoT) (ls : List Rat) (l : Rat) (hl : l ∈ ls) :
    lookupS (st.filter (fun kv => decide (kv.1 ∉ ls))) l = none := by
  induction st with
  | nil => rfl
  | cons kv st ih =>
      obtain ⟨k, v⟩ := kv
      by_cases hk : k ∈ ls
      · rw [List.filter_cons_of_neg (by simp [hk])]
        exact ih
      · rw [List.filter_cons_of_pos (by simp [hk])]
        unfold lookupS
        rw [if_neg (by rintro rfl; exact hk hl)]
        exact ih

theorem le_foldl_max (l : List Rat) (b x : Rat) (hx : x ≤ b) : x ≤ l.foldl max b := by
  induction l generalizing b with
  | nil => exact hx
  | cons a l ih => exact ih (max b a) (le_trans hx (le_max_left b a))

theorem mem_le_foldl_max (l : List Rat) (b x : Rat) (hx : x ∈ l) : x ≤ l.foldl max b := by
  induction l generalizing b with
  | nil => cases hx
  | cons a l ih =>
      rcases List.mem_cons.mp hx with rfl | hm
      · exact le_foldl_max l (max b x) x (le_max_right b x)
      · exact ih (max b a) hm

/-- Freshness: `__newLoc` strictly exceeds every key currently in the store. -/
theorem newLoc_gt (st : StoT) (k : Rat) (hk : k ∈ keysS st) : k < newLoc st := by
  cases hke : keysS st with
  | nil => rw [hke] at hk; cases hk
  | cons a l =>
      rw [hke] at hk
      have hle : k ≤ l.foldl max a := by
        rcases List.mem_cons.mp hk with rfl | hm
        · exact le_foldl_max l _ _ le_rfl
        · exact mem_le_foldl_max l a k hm
      have hnl : newLoc st = addQ (l.foldl max a) 1 := by
        unfold newLoc
        rw [hke]
      rw [hnl, addQ_eq]
      linarith

/-- On an empty store `__newLoc` hands out the fixed starting location `0`. -/
theorem newLoc_empty : newLoc [] = 0 := rfl

/-- C2: block scoping. A completed run of `Blk(d, cb)` restores the
value stack, the environment and the live ledger; it passes through a
`BLKDEC` state `sd` (end of the declarations) and a `BLKCMD` state `sb`
whose saved value-stack entries are intact; the final store is the `BLKCMD`
store minus every entry whose location is in the popped (by-reference)
ledger; that popped ledger extends the post-declaration ledger, and every
location in it — in particular every location the block's declarations
allocated — is absent from the final store. -/
theorem C2_block_scoping (d cb : Stmt) (m₀ mf : MState) (n : Nat)
    (hwf : wfT (.blk d cb) = true)
    (h : stepN n ⟨[.stmt (.blk d cb)], m₀⟩ = .ok ⟨[], mf⟩) :
    mf.val = m₀.val ∧
    mf.env = m₀.env ∧
    liveLocs mf = liveLocs m₀ ∧
    ∃ (kd n₀ : Nat) (sd sb : MState),
      n = n₀ + 1 ∧
      stepN kd ⟨[.stmt (.blk d cb)], m₀⟩ = .ok ⟨[.str "#BLKDEC"], sd⟩ ∧
      sd.cur = m₀.cur ∧
      stepN n₀ ⟨[.stmt (.blk d cb)], m₀⟩ = .ok ⟨[.str "#BLKCMD"], sb⟩ ∧
      sb.val = .map m₀.env :: .ref m₀.cur :: .snap (liveLocs m₀) :: m₀.val ∧
      mf.sto = sb.sto.filter (fun kv => decide (kv.1 ∉ sb.cells.getD m₀.cur [])) ∧
      (∃ tl, sb.cells.getD m₀.cur [] = liveLocs sd ++ tl) ∧
      (∀ l ∈ sb.cells.getD m₀.cur [], lookupS mf.sto l = none) := by
  obtain ⟨hdd, hcc, hwd, hwc⟩ := wfT_blk hwf
  obtain ⟨n₁, p, m₁, rfl, hd, hr⟩ := run_cons h
  rw [dec_blk] at hd
  injection hd with h2
  injection h2 with hp hm
  subst hp; subst hm
  rw [List.append_nil] at hr
  obtain ⟨k₁, ma, hk₁, hrun1, hrest1⟩ := run_split1 hr
  obtain ⟨henv1, -, -, hdec1, hcur1⟩ := runDiscipline k₁ d _ ma hwd hrun1
  obtain ⟨dm, hval1⟩ := hdec1 hdd
  have hcura : ma.cur = m₀.cur := hcur1 (by simp [hdd])
  obtain ⟨r, p₂, m₂, hreq, hd2, hrr⟩ := run_cons hrest1
  obtain ⟨Va, ena, sta, csa, cua⟩ := ma
  have hVa : Va = .map dm :: .stmt cb :: .snap (liveLocs m₀) :: m₀.val := hval1
  subst hVa
  have h_ena : ena = m₀.env := henv1
  have h_cua : cua = m₀.cur := hcura
  subst h_ena; subst h_cua
  rw [dec_blkDecKW] at hd2
  injection hd2 with h3
  injection h3 with hp2 hm2
  subst hp2; subst hm2
  rw [List.append_nil] at hrr
  obtain ⟨k₂, mc, hk₂, hrun2, hrest2⟩ := run_split1 hrr
  obtain ⟨henv2, -, hcmd2, -, -⟩ := runDiscipline k₂ cb _ mc hwc hrun2
  have hval2 := hcmd2 hcc
  obtain ⟨r₂, p₃, m₃, hreq2, hd3, hrr2⟩ := run_cons hrest2
  obtain ⟨Vc, enc, stc, csc, cuc⟩ := mc
  have hVc : Vc = .map m₀.env :: .ref m₀.cur :: .snap (liveLocs m₀) :: m₀.val := hval2
  subst hVc
  rw [dec_blkCmdKW] at hd3
  injection hd3 with h4
  injection h4 with hp3 hm3
  subst hp3; subst hm3
  rw [List.nil_append] at hrr2
  obtain ⟨hr₂0, hfin⟩ := stepN_nil r₂ _ _ hrr2
  injection hfin with _ hm'
  subst hm'
  have h1 : stepN 1 ⟨[.stmt (.blk d cb)], m₀⟩ =
      .ok ⟨[.stmt d, .str "#BLKDEC"],
        { m₀ with val := .stmt cb :: .snap (liveLocs m₀) :: m₀.val }⟩ := rfl
  have hframe1 := stepN_frame k₁ [.stmt d] [] [.str "#BLKDEC"] _ _ hrun1
  have hkd : stepN (1 + k₁) ⟨[.stmt (.blk d cb)], m₀⟩ =
      .ok ⟨[.str "#BLKDEC"],
        ⟨.map dm :: .stmt cb :: .snap (liveLocs m₀) :: m₀.val, m₀.env, sta, csa, m₀.cur⟩⟩ := by
    rw [stepN_add 1 k₁, h1]
    exact hframe1
  have hdecstep : stepN 1
      ⟨[.str "#BLKDEC"],
        ⟨.map dm :: .stmt cb :: .snap (liveLocs m₀) :: m₀.val, m₀.env, sta, csa, m₀.cur⟩⟩ =
      .ok ⟨[.stmt cb, .str "#BLKCMD"],
        ⟨.map m₀.env :: .ref m₀.cur :: .snap (liveLocs m₀) :: m₀.val,
          mergeE m₀.env dm, sta, csa, m₀.cur⟩⟩ := rfl
  have hframe2 := stepN_frame k₂ [.stmt cb] [] [.str "#BLKCMD"] _ _ hrun2
  have hsdsb : stepN (1 + k₂)
      ⟨[.str "#BLKDEC"],
        ⟨.map dm :: .stmt cb :: .snap (liveLocs m₀) :: m₀.val, m₀.env, sta, csa, m₀.cur⟩⟩ =
      .ok ⟨[.str "#BLKCMD"],
        ⟨.map m₀.env :: .ref m₀.cur :: .snap (liveLocs m₀) :: m₀.val, enc, stc, csc, cuc⟩⟩ := by
    rw [stepN_add 1 k₂, hdecstep]
    exact hframe2
  have hn₀ : stepN (1 + k₁ + (1 + k₂)) ⟨[.stmt (.blk d cb)], m₀⟩ =
      .ok ⟨[.str "#BLKCMD"],
        ⟨.map m₀.env :: .ref m₀.cur :: .snap (liveLocs m₀) :: m₀.val, enc, stc, csc, cuc⟩⟩ := by
    rw [stepN_add (1 + k₁) (1 + k₂), hkd]
    exact hsdsb
  obtain ⟨tl, htl⟩ := stepN_cells_mono (1 + k₂) _ _ hsdsb m₀.cur
  have hlive : (csc ++ [liveLocs m₀]).getD csc.length [] = liveLocs m₀ := by
    rw [List.getD_eq_getElem?_getD, List.getElem?_concat_length]
    rfl
  refine ⟨rfl, rfl, hlive, 1 + k₁, 1 + k₁ + (1 + k₂),
    ⟨.map dm :: .stmt cb :: .snap (liveLocs m₀) :: m₀.val, m₀.env, sta, csa, m₀.cur⟩,
    ⟨.map m₀.env :: .ref m₀.cur :: .snap (liveLocs m₀) :: m₀.val, enc, stc, csc, cuc⟩,
    by omega, hkd, rfl, hn₀, rfl, rfl, ⟨tl, htl⟩, ?_⟩
  intro l hl
  exact lookupS_filter_not_mem stc (csc.getD m₀.cur []) l hl

/-! ## Claim theorems -/

/-- C1: on a fresh expression machine, `Sum(Num(a), Num(b))` runs to an
empty control stack leaving `a + b` as the sole value-stack entry, `Sub`
leaves `a - b` and `Mul` leaves `a * b`; after two steps of the `Sub` run
the value stack holds `b` (the second operand is evaluated first) while
`Num(a)` is still pending above the `#SUB` marker, so the combine step pops
`v1` = `a` (evaluated last) and `v2` = `b` and pushes `v1 - v2 = a - b`. -/
theorem C1_binary_arithmetic (a b : Rat) :
    stepExpN 4 ⟨[.stmt (.sum (.num a) (.num b))], ⟨[], [], [], [[]], 0⟩⟩ =
      .ok ⟨[], ⟨[.num (a + b)], [], [], [[]], 0⟩⟩ ∧
    stepExpN 4 ⟨[.stmt (.sub (.num a) (.num b))], ⟨[], [], [], [[]], 0⟩⟩ =
      .ok ⟨[], ⟨[.num (a - b)], [], [], [[]], 0⟩⟩ ∧
    stepExpN 4 ⟨[.stmt (.mul (.num a) (.num b))], ⟨[], [], [], [[]], 0⟩⟩ =
      .ok ⟨[], ⟨[.num (a * b)], [], [], [[]], 0⟩⟩ ∧
    stepExpN 2 ⟨[.stmt (.sub (.num a) (.num b))], ⟨[], [], [], [[]], 0⟩⟩ =
      .ok ⟨[.stmt (.num a), .str "#SUB"], ⟨[.num b], [], [], [[]], 0⟩⟩ := by
  refine ⟨?_, ?_, ?_, ?_⟩ <;>
    simp [stepExpN, stepExp, evalExpStep, addV, subV, mulV, toNumV,
      addQ_eq, subQ_eq, mulQ_eq]

/-- C2 witness: the block binding `w` to `Ref(Num(5.0))` with body
`w := 7.0`, run on a fresh machine, completes in 11 steps and exhibits
every conclusion of the block-scoping theorem. -/
theorem C2_witness :
    (⟨[], [], [], [[0], []], 1⟩ : MState).val = (⟨[], [], [], [[]], 0⟩ : MState).val ∧
    (⟨[], [], [], [[0], []], 1⟩ : MState).env = (⟨[], [], [], [[]], 0⟩ : MState).env ∧
    liveLocs ⟨[], [], [], [[0], []], 1⟩ = liveLocs ⟨[], [], [], [[]], 0⟩ ∧
    ∃ (kd n₀ : Nat) (sd sb : MState),
      11 = n₀ + 1 ∧
      stepN kd ⟨[.stmt (.blk (.bind (.id "w") (.ref (.num 5)))
          (.assign (.id "w") (.num 7)))], ⟨[], [], [], [[]], 0⟩⟩ =
        .ok ⟨[.str "#BLKDEC"], sd⟩ ∧
      sd.cur = (⟨[], [], [], [[]], 0⟩ : MState).cur ∧
      stepN n₀ ⟨[.stmt (.blk (.bind (.id "w") (.ref (.num 5)))
          (.assign (.id "w") (.num 7)))], ⟨[], [], [], [[]], 0⟩⟩ =
        .ok ⟨[.str "#BLKCMD"], sb⟩ ∧
      sb.val = .map (⟨[], [], [], [[]], 0⟩ : MState).env ::
        .ref (⟨[], [], [], [[]], 0⟩ : MState).cur ::
        .snap (liveLocs ⟨[], [], [], [[]], 0⟩) :: (⟨[], [], [], [[]], 0⟩ : MState).val ∧
      (⟨[], [], [], [[0], []], 1⟩ : MState).sto =
        sb.sto.filter (fun kv =>
          decide (kv.1 ∉ sb.cells.getD (⟨[], [], [], [[]], 0⟩ : MState).cur [])) ∧
      (∃ tl, sb.cells.getD (⟨[], [], [], [[]], 0⟩ : MState).cur [] = liveLocs sd ++ tl) ∧
      (∀ l ∈ sb.cells.getD (⟨[], [], [], [[]], 0⟩ : MState).cur [],
        lookupS (⟨[], [], [], [[0], []], 1⟩ : MState).sto l = none) :=
  C2_block_scoping (.bind (.id "w") (.ref (.num 5))) (.assign (.id "w") (.num 7))
    ⟨[], [], [], [[]], 0⟩ ⟨[], [], [], [[0], []], 1⟩ 11 (by decide) (by decide)

/-- C3 counterexample: the notebook's `fac_blk` program, driven from a
fresh machine to an empty control stack, takes 65 steps and finishes with
an *empty* store: at completion neither location `0` (`x`) nor location
`1` (`y`) is mapped at all, contradicting the claim that the store then
maps `x`'s location to `2.0` and `y`'s to `0.0`. -/
theorem C3_counterexample :
    stepN 65 facInit = .ok ⟨[], ⟨[], [], [], [[0, 1], []], 1⟩⟩ ∧
    lookupS (⟨[], [], [], [[0, 1], []], 1⟩ : MState).sto 0 = none ∧
    lookupS (⟨[], [], [], [[0, 1], []], 1⟩ : MState).sto 1 = none := by
  exact ⟨by decide, rfl, rfl⟩

/-- C3 amended: one step before completion — with the final `BLKCMD`
pending — the environment binds `x` to location `0` and `y` to location
`1`, and the store maps `0` to `2.0` and `1` to `0.0`; the final `BLKCMD`
step then removes both entries, leaving the store empty at the empty
control stack. -/
theorem C3_factorial_run :
    stepN 64 facInit = .ok ⟨[.str "#BLKCMD"],
      ⟨[.map [], .ref 0, .snap []], [("x", 0), ("y", 1)],
        [(0, .num 2), (1, .num 0)], [[0, 1]], 0⟩⟩ ∧
    lookupE [("x", 0), ("y", 1)] "x" = some 0 ∧
    lookupE [("x", 0), ("y", 1)] "y" = some 1 ∧
    lookupS [(0, .num 2), (1, .num 0)] 0 = some (.num 2) ∧
    lookupS [(0, .num 2), (1, .num 0)] 1 = some (.num 0) ∧
    stepN 65 facInit = .ok ⟨[], ⟨[], [], [], [[0, 1], []], 1⟩⟩ := by
  exact ⟨by decide, by decide, by decide, by decide, by decide, by decide⟩

/-- C4 counterexample: two successive blocks each allocating one `Ref`.
The first block's exit empties the store, so `__newLoc` hands out location
`0` twice in one run — the allocation trace is `[0, 0]`, which is neither
duplicate-free nor strictly increasing. -/
theorem C4_counterexample :
    allocTrace 100 reuseInit = [0, 0] ∧ ¬ (allocTrace 100 reuseInit).Nodup := by
  exact ⟨by decide, by decide⟩

/-- C4 amended: every `Ref` allocation hands out `__newLoc` of the current
store — strictly greater than every location currently present, and `0`
exactly on the empty store — and the `#REF` combine stores the popped value
there, appends the location to the live ledger and pushes it; but
locations are not unique over a whole run once block-exit cleanup removes
store entries (see the counterexample). -/
theorem C4_allocation_policy :
    (∀ (st : StoT) (k : Rat), k ∈ keysS st → k < newLoc st) ∧
    newLoc [] = 0 ∧
    (∀ (v : Val) (vs : List Val) (en : EnvT) (st : StoT) (cs : List (List Rat))
        (cu : Nat) (K : List Val),
      step ⟨.str "#REF" :: K, ⟨v :: vs, en, st, cs, cu⟩⟩ =
        .ok ⟨K, ⟨.num (newLoc st) :: vs, en, setS st (newLoc st) v,
          cs.set cu (cs.getD cu [] ++ [newLoc st]), cu⟩⟩) := by
  refine ⟨fun st k hk => newLoc_gt st k hk, rfl, fun v vs en st cs cu K => ?_⟩
  simp [step, dec_refKW]

/-- C4 witness: with the store `{5.0 ↦ 1.0}`, the next allocation `6.0`
strictly exceeds the present key `5.0`. -/
theorem C4_witness :
    (5 : Rat) ∈ keysS [(5, Val.num 1)] ∧ (5 : Rat) < newLoc [(5, Val.num 1)] :=
  ⟨by decide, C4_allocation_policy.1 [(5, Val.num 1)] 5 (by decide)⟩

/-- C5: a completed run of `CSeq(c1, c2)` from a fresh machine with any
initial environment and store factors as a completed run of `c1` alone
from the same initial state, followed by a completed run of `c2` pushed
onto the machine state `c1` produced — ending in the same final state
(hence the same final store), with `c1` fully evaluated before `c2`
starts. -/
theorem C5_cseq_composition (c1 c2 : Stmt) (en : EnvT) (st : StoT) (n : Nat)
    (mf : MState)
    (h : stepN n (initAut (.cseq c1 c2) en st) = .ok ⟨[], mf⟩) :
    ∃ (k₁ k₂ : Nat) (m₁ : MState),
      stepN k₁ (initAut c1 en st) = .ok ⟨[], m₁⟩ ∧
      stepN k₂ ⟨[.stmt c2], m₁⟩ = .ok ⟨[], mf⟩ ∧
      n = 1 + k₁ + k₂ := by
  rw [show initAut (.cseq c1 c2) en st =
    ⟨[.stmt (.cseq c1 c2)], ⟨[], en, st, [[]], 0⟩⟩ from rfl] at h
  obtain ⟨n₁, p, m₁, rfl, hd, hr⟩ := run_cons h
  rw [dec_cseq] at hd
  injection hd with h2
  injection h2 with hp hm
  subst hp; subst hm
  rw [List.append_nil] at hr
  obtain ⟨k₁, ma, hk₁, hrun1, hrest1⟩ := run_split1 hr
  exact ⟨k₁, n₁ - k₁, ma, hrun1, hrest1, by omega⟩

/-- C5 witness: `CSeq(u := 1.0, u := 2.0)` with `u` bound to location `0`
holding `0.0` completes in 7 steps; the run factors through running each
assignment to completion in turn. -/
theorem C5_witness :
    ∃ (k₁ k₂ : Nat) (m₁ : MState),
      stepN k₁ (initAut (.assign (.id "u") (.num 1)) [("u", 0)] [(0, .num 0)]) =
        .ok ⟨[], m₁⟩ ∧
      stepN k₂ ⟨[.stmt (.assign (.id "u") (.num 2))], m₁⟩ =
        .ok ⟨[], ⟨[], [("u", 0)], [(0, .num 2)], [[]], 0⟩⟩ ∧
      7 = 1 + k₁ + k₂ :=
  C5_cseq_composition (.assign (.id "u") (.num 1)) (.assign (.id "u") (.num 2))
    [("u", 0)] [(0, .num 0)] 7 ⟨[], [("u", 0)], [(0, .num 2)], [[]], 0⟩ (by decide)

/-- C6: `Loop(Not(Eq(Id("y"), Num(0.0))), y := y - 1.0)` with `y` bound to
a location holding `2.0` is driven to an empty control stack in 36 steps,
executes the body exactly twice, and leaves `y`'s store value at `0.0`;
and whenever the `#LOOP` combine pops a falsy condition value it discards
exactly the two saved value-stack entries (body and saved `Loop` tree)
without pushing the body, leaving stacks, environment and store otherwise
untouched. -/
theorem C6_loop_behaviour :
    stepN 36 decrInit = .ok ⟨[], ⟨[], [("y", 0)], [(0, .num 0)], [[]], 0⟩⟩ ∧
    countTop (.stmt decrBody) 100 decrInit = 2 ∧
    (∀ (K : List Val) (t cb lo : Val) (vs : List Val) (en : EnvT) (st : StoT)
        (cs : List (List Rat)) (cu : Nat), truthy cs t = false →
      step ⟨.str "#LOOP" :: K, ⟨t :: cb :: lo :: vs, en, st, cs, cu⟩⟩ =
        .ok ⟨K, ⟨vs, en, st, cs, cu⟩⟩) := by
  refine ⟨by decide, by decide, fun K t cb lo vs en st cs cu hf => ?_⟩
  simp [step, dec_loopKW, hf]

/-- C6 witness: the false branch of `#LOOP` at a concrete falsy condition
value discards the two saved entries. -/
theorem C6_witness :
    truthy [[]] (.bool false) = false ∧
    step ⟨[.str "#LOOP"], ⟨[.bool false, .num 1, .num 2], [], [], [[]], 0⟩⟩ =
      .ok ⟨[], ⟨[], [], [], [[]], 0⟩⟩ :=
  ⟨by decide, C6_loop_behaviour.2.2 [] (.bool false) (.num 1) (.num 2) [] [] [] [[]] 0
    (by decide)⟩

/-- C7: the machine is deterministic — any two runs of the same tree from
machines seeded with identical initial environment and store that reach an
empty control stack reach the same final machine state (same value stack,
same store). -/
theorem C7_determinism (t : Stmt) (en : EnvT) (st : StoT) (n₁ n₂ : Nat)
    (f₁ f₂ : PiAut)
    (h₁ : stepN n₁ (initAut t en st) = .ok f₁) (hf₁ : f₁.cnt = [])
    (h₂ : stepN n₂ (initAut t en st) = .ok f₂) (hf₂ : f₂.cnt = []) :
    f₁ = f₂ := by
  have key : ∀ (a d : Nat) (s : PiAut) (f f' : PiAut), stepN a s = .ok f →
      f.cnt = [] → stepN (a + d) s = .ok f' → f' = f := by
    intro a d s f f' h hf h2
    rw [stepN_add, h] at h2
    cases d with
    | zero =>
        injection h2 with h3
        exact h3.symm
    | succ d =>
        obtain ⟨cntf, mfx⟩ := f
        simp only at hf
        subst hf
        simp [stepN, step] at h2
  rcases Nat.le_total n₁ n₂ with hle | hle
  · obtain ⟨d, rfl⟩ := Nat.le.dest hle
    exact (key n₁ d _ _ _ h₁ hf₁ h₂).symm
  · obtain ⟨d, rfl⟩ := Nat.le.dest hle
    exact key n₂ d _ _ _ h₂ hf₂ h₁

/-- C7 witness: two completed runs of the decrement loop coincide. -/
theorem C7_witness :
    (⟨[], ⟨[], [("y", 0)], [(0, .num 0)], [[]], 0⟩⟩ : PiAut) =
      ⟨[], ⟨[], [("y", 0)], [(0, .num 0)], [[]], 0⟩⟩ :=
  C7_determinism decrLoop [("y", 0)] [(0, .num 2)] 36 36
    ⟨[], ⟨[], [("y", 0)], [(0, .num 0)], [[]], 0⟩⟩
    ⟨[], ⟨[], [("y", 0)], [(0, .num 0)], [[]], 0⟩⟩
    (by decide) rfl (by decide) rfl

/-- C8: every composite constructor rejects an operand of the wrong sort
with the `MalformedTerm` condition (the failing `assert`), before any tree
reaches the machine; and no machine step ever produces that condition. -/
theorem C8_malformed_construction :
    (∀ e1 e2 : Stmt, (isExpT e1 && isExpT e2) = false →
      mkSum e1 e2 = .error .malformedTerm ∧ mkSub e1 e2 = .error .malformedTerm ∧
      mkMul e1 e2 = .error .malformedTerm ∧ mkEq e1 e2 = .error .malformedTerm) ∧
    (∀ e : Stmt, isExpT e = false → mkNot e = .error .malformedTerm ∧
      mkRef e = .error .malformedTerm ∧ mkCns e = .error .malformedTerm) ∧
    (∀ i e : Stmt, (isIdT i && isExpT e) = false →
      mkAssign i e = .error .malformedTerm ∧ mkBind i e = .error .malformedTerm) ∧
    (∀ be c : Stmt, (isBoolT be && isCmdT c) = false →
      mkLoop be c = .error .malformedTerm) ∧
    (∀ c1 c2 : Stmt, (isCmdT c1 && isCmdT c2) = false →
      mkCSeq c1 c2 = .error .malformedTerm) ∧
    (∀ d c : Stmt, (isDecT d && isCmdT c) = false →
      mkBlk d c = .error .malformedTerm) ∧
    (∀ d1 d2 : Stmt, (isDecT d1 && isDecT d2) = false →
      mkDSeq d1 d2 = .error .malformedTerm) ∧
    (∀ s : PiAut, step s ≠ .error .malformedTerm) := by
  refine ⟨fun e1 e2 h => ⟨?_, ?_, ?_, ?_⟩, fun e h => ⟨?_, ?_, ?_⟩,
    fun i e h => ⟨?_, ?_⟩, fun be c h => ?_, fun c1 c2 h => ?_,
    fun d c h => ?_, fun d1 d2 h => ?_, step_no_malformed⟩ <;>
    simp [mkSum, mkSub, mkMul, mkEq, mkNot, mkRef, mkCns, mkAssign, mkBind,
      mkLoop, mkCSeq, mkBlk, mkDSeq, h]

/-- C8 witness: `Mul` applied to a command operand fails at construction
with `MalformedTerm`. -/
theorem C8_witness :
    mkMul (.num 1) (.assign (.id "x") (.num 2)) = .error .malformedTerm :=
  (C8_malformed_construction.1 (.num 1) (.assign (.id "x") (.num 2))
    (by decide)).2.2.1

/-- C9: `Cns(e)` is constructible for every expression `e`, but no layer
of the machine has a rule for it: the declaration layer delegates it to
the command layer, which delegates it to the expression layer, whose final
`else` raises the ill-formed-control error — stepping a machine whose
control-stack top is a `Cns` tree fails with `IllFormedControl`. -/
theorem C9_cns_no_rule :
    (∀ e : Stmt, isExpT e = true → mkCns e = .ok (.cns e)) ∧
    (∀ (e : Stmt) (m : MState),
      evalDecStep (.stmt (.cns e)) m = evalCmdStep (.stmt (.cns e)) m ∧
      evalCmdStep (.stmt (.cns e)) m = evalExpStep (.stmt (.cns e)) m ∧
      evalExpStep (.stmt (.cns e)) m = .error .illFormed) ∧
    (∀ (e : Stmt) (K : List Val) (m : MState),
      step ⟨.stmt (.cns e) :: K, m⟩ = .error .illFormed) := by
  refine ⟨fun e he => by simp [mkCns, he], fun e m => ⟨rfl, rfl, rfl⟩,
    fun e K m => ?_⟩
  simp [step, dec_cns_delegates, cmd_cns_delegates, exp_cns_illFormed]

/-- C9 witness: `Cns(Num(1.0))` constructs fine and immediately crashes
the machine. -/
theorem C9_witness :
    mkCns (.num 1) = .ok (.cns (.num 1)) ∧
    step ⟨[.stmt (.cns (.num 1))], ⟨[], [], [], [[]], 0⟩⟩ = .error .illFormed :=
  ⟨C9_cns_no_rule.1 (.num 1) (by decide),
   C9_cns_no_rule.2.2 (.num 1) [] ⟨[], [], [], [[]], 0⟩⟩

/-- C10: a completed run of a pure expression (built only from `Num`,
`Sum`, `Sub`, `Mul`, `Eq`, `Not`) leaves the environment, the store and
the ledger cells exactly as they were before evaluation began, pushing
exactly one result value. -/
theorem C10_pure_expression_frame (t : Stmt) (n : Nat) (m mf : MState)
    (hp : pureT t = true)
    (h : stepN n ⟨[.stmt t], m⟩ = .ok ⟨[], mf⟩) :
    mf.env = m.env ∧ mf.sto = m.sto ∧ mf.cells = m.cells ∧ mf.cur = m.cur ∧
      ∃ v, mf.val = v :: m.val :=
  pureFrame n t m mf hp h

/-- C10 witness: `Sum(Num(1.0), Num(2.0))` evaluated over a non-trivial
environment, store and ledger leaves all three untouched. -/
theorem C10_witness :
    (⟨[.num 3], [("z", 5)], [(5, .num 9)], [[1]], 0⟩ : MState).env =
      (⟨[], [("z", 5)], [(5, .num 9)], [[1]], 0⟩ : MState).env ∧
    (⟨[.num 3], [("z", 5)], [(5, .num 9)], [[1]], 0⟩ : MState).sto =
      (⟨[], [("z", 5)], [(5, .num 9)], [[1]], 0⟩ : MState).sto ∧
    (⟨[.num 3], [("z", 5)], [(5, .num 9)], [[1]], 0⟩ : MState).cells =
      (⟨[], [("z", 5)], [(5, .num 9)], [[1]], 0⟩ : MState).cells ∧
    (⟨[.num 3], [("z", 5)], [(5, .num 9)], [[1]], 0⟩ : MState).cur =
      (⟨[], [("z", 5)], [(5, .num 9)], [[1]], 0⟩ : MState).cur ∧
    ∃ v, (⟨[.num 3], [("z", 5)], [(5, .num 9)], [[1]], 0⟩ : MState).val =
      v :: (⟨[], [("z", 5)], [(5, .num 9)], [[1]], 0⟩ : MState).val :=
  C10_pure_expression_frame (.sum (.num 1) (.num 2)) 4
    ⟨[], [("z", 5)], [(5, .num 9)], [[1]], 0⟩
    ⟨[.num 3], [("z", 5)], [(5, .num 9)], [[1]], 0⟩ (by decide) (by decide)
